import Mathlib

/-!
# Verification of the printed-books catalog model

Shallow embedding of the repository's data model and traversal algorithms
(`gen_table.py`, `manage_books.py`) and proofs of the specified properties.

A book record is a JSON dict; a node is a "multi-part book" (interior) exactly
when it has a `"data"` key, otherwise it is a simple book (leaf) with the seven
leaf fields.  Python floats are modelled as exact rationals `ℚ`, Python ints as
`Int`, Python strings as `String` (both are sequences of Unicode code points,
compared pointwise by code point).
-/

namespace PrintedBooks

/-- A catalog node.  Leaf constructor fields appear in the key order used by
`create_simple_book` / the persisted file: author, book_category, book_size,
language, page_count, price, title.  An interior node (`"data" in item`) has
author, title and the ordered children list `data`. -/
inductive BookNode where
  | leaf (author book_category book_size language : String)
         (page_count : Int) (price : ℚ) (title : String)
  | interior (author title : String) (data : List BookNode)

namespace BookNode

/-- `item["title"]` (present on both variants). -/
def title : BookNode → String
  | .leaf _ _ _ _ _ _ t => t
  | .interior _ t _ => t

/-- `item["author"]` (present on both variants). -/
def author : BookNode → String
  | .leaf a _ _ _ _ _ _ => a
  | .interior a _ _ => a

end BookNode

/-- Pre-order walk of a forest: visit a node, then its children left to right,
then the next sibling.  This is the "manual pre-order walk" of the spec, the
reference against which `find_book_by_index` is checked. -/
def preorderF : List BookNode → List BookNode
  | [] => []
  | .leaf a c s lg pc pr t :: rest =>
      .leaf a c s lg pc pr t :: preorderF rest
  | .interior a t ch :: rest =>
      .interior a t ch :: (preorderF ch ++ preorderF rest)

/-! ## Navigator: `BookManager.find_book_by_index` (manage_books.py)

```
for book in books:
    current_index += 1
    if current_index == target_index: return book, current_index
    if "data" in book:
        found, current_index = self.find_book_by_index(book["data"], target_index, current_index)
        if found is not None: return found, current_index
return None, current_index
```
Indices are Python ints, hence `Int` (the target may be 0 or negative). -/
def find_book_by_index : List BookNode → Int → Int → Option BookNode × Int
  | [], _, current => (none, current)
  | book :: rest, target, current =>
      let current' := current + 1
      if current' = target then (some book, current')
      else
        match book with
        | .interior _ _ ch =>
            match find_book_by_index ch target current' with
            | (some found, idx) => (some found, idx)
            | (none, idx) => find_book_by_index rest target idx
        | .leaf .. => find_book_by_index rest target current'

/-! ## Display: `BookManager.display_books` (manage_books.py)

```
for idx, book in enumerate(books, 1):
    prefix = "  " * indent
    print(f"{prefix}{idx}. {book['title']} - {book['author']}")
    if "data" in book:
        self.display_books(book["data"], indent + 1)
```
Each printed line is modelled as `(indent, idx, title, author)`; `enumerate`
restarts `idx` at 1 for every (recursive) call. -/
def display_books_from : List BookNode → Nat → Nat → List (Nat × Nat × String × String)
  | [], _, _ => []
  | .leaf a _ _ _ _ _ t :: rest, indent, idx =>
      (indent, idx, t, a) :: display_books_from rest indent (idx + 1)
  | .interior a t ch :: rest, indent, idx =>
      (indent, idx, t, a) :: (display_books_from ch (indent + 1) 1
        ++ display_books_from rest indent (idx + 1))

/-- `display_books(books)` with the default arguments (`indent = 0`,
enumeration starting at 1). -/
def display_books (books : List BookNode) : List (Nat × Nat × String × String) :=
  display_books_from books 0 1

/-! ## Mutator: author propagation and part append (manage_books.py) -/

/-- `BookEditor._update_author_recursively(data, new_author)`:
```
for item in data:
    item["author"] = new_author
    if "data" in item:
        self._update_author_recursively(item["data"], new_author)
```
Returns the post-state of the (in-place mutated) list. -/
def update_author_recursively : List BookNode → String → List BookNode
  | [], _ => []
  | .leaf _ c s lg pc pr t :: rest, na =>
      .leaf na c s lg pc pr t :: update_author_recursively rest na
  | .interior _ t ch :: rest, na =>
      .interior na t (update_author_recursively ch na) :: update_author_recursively rest na

/-- `BookEditor._edit_multi_part_book`, choice 3 (edit author), applied to an
interior node `book`:
```
book["author"] = new_author
self._update_author_recursively(book["data"], new_author)
```
Returns the post-state of `book`. -/
def rename_interior_author (a t : String) (ch : List BookNode) (na : String) : BookNode :=
  .interior na t (update_author_recursively ch na)

/-- `BookEditor._add_part_to_book(book)` with the interactively supplied values
`book_category`, `book_size`, `language`, `part_title`, `page_count`, `price`
(the UI is an external capability supplying validated values; no author is
asked for — the new part gets `book["author"]`):
```
new_part = {"author": book["author"], "book_category": ..., "book_size": ...,
            "language": ..., "page_count": ..., "price": ..., "title": part_title}
book["data"].append(new_part)
```
`none` models the `KeyError` a leaf (no `"data"` list) would raise. -/
def add_part_to_book (book : BookNode) (cat sz lang ttl : String)
    (pc : Int) (pr : ℚ) : Option BookNode :=
  match book with
  | .interior a t ch => some (.interior a t (ch ++ [.leaf a cat sz lang pc pr ttl]))
  | .leaf .. => none

/-! ## Sorter: `_sort_data` (gen_table.py)

```
def _sort_data(data):
    def sort_key(x): return x['title']
    def sort(items):
        if 'data' in items:
            items['data'] = sorted((sort(elt) for elt in items['data']), key=sort_key)
        return items
    return sorted((sort(elt) for elt in data), key=sort_key)
```

`sorted(key=...)` is Python's stable ascending sort by key; Python compares
strings lexicographically by code point, exactly as Lean's `String` order.  We
embed it as a stable insertion sort `pySorted`: it is a permutation, sorted by
`title`, and stable, which determines the function extensionally (a stable
ascending sort is unique), so it agrees with Timsort.

`sort(items)` mutates each interior dict in place (`items['data'] = ...`),
returning the same object, and the outer `sorted` builds a *new* top-level
list.  We therefore embed both the returned forest (`sort_data`) and the
post-state of the tree hanging off the original list (`sort_data_post`): after
the call, the original list still holds the same node objects in their
original order, but each of them has been recursively sorted in place
(`sortNode`). -/

/-- Insert `b` into `l` before the first element whose title is strictly
greater: the insertion step of a stable ascending insertion sort. -/
def insertByTitle (b : BookNode) : List BookNode → List BookNode
  | [] => [b]
  | c :: cs =>
      if c.title < b.title then c :: insertByTitle b cs else b :: c :: cs

/-- Stable ascending sort by `title`: the embedding of
`sorted(..., key=lambda x: x['title'])`. -/
def pySorted : List BookNode → List BookNode
  | [] => []
  | b :: bs => insertByTitle b (pySorted bs)

mutual
/-- The in-place effect of the inner `sort(items)` on one node: a leaf is
returned unchanged; an interior node's `data` list is replaced by the sorted
list of its recursively sorted children. -/
def sortNode : BookNode → BookNode
  | .leaf a c s lg pc pr t => .leaf a c s lg pc pr t
  | .interior a t ch => .interior a t (pySorted (sortForest ch))

/-- `[sort(elt) for elt in data]`: each element mutated in place. -/
def sortForest : List BookNode → List BookNode
  | [] => []
  | b :: bs => sortNode b :: sortForest bs
end

/-- The list returned by `_sort_data(data)`. -/
def sort_data (data : List BookNode) : List BookNode :=
  pySorted (sortForest data)

/-- The post-state of the tree reachable from the argument list after
`_sort_data(data)` returns: the list object bound to `data` is unchanged (same
elements, same order), but every element has been sorted in place by the inner
`sort`. -/
def sort_data_post (data : List BookNode) : List BookNode :=
  sortForest data

/-! ## Renderer/aggregator: `languages`, `accumulate`, `_title`, `_crawl`
(gen_table.py) -/

/-- The `languages` dict (gen_table.py): a fixed code → label table.  The
entry for the empty code is the visible error marker. -/
def languages : List (String × String) :=
  [("eng", "Anglais"), ("fra", "Français"), ("lat", "Latin"),
   ("heb", "Hébreu"), ("", "PROBLEM\n\n\n")]

/-- `languages[code]`: dict lookup; `none` models the `KeyError` raised for a
code that is not a key of the table. -/
def languagesLookup (code : String) : Option String :=
  (languages.find? (fun p => p.1 = code)).map (·.2)

/-- `accumulate(l) = functools.reduce(lambda x, y: x + y, l)`: `none` models
the `TypeError` that `reduce` raises on an empty list (no initial value). -/
def accumulate {α : Type} [Add α] : List α → Option α
  | [] => none
  | x :: xs => some (xs.foldl (· + ·) x)

/-- Python's `round` on a number half-way between two integers rounds to the
even integer (banker's rounding); otherwise to the nearest integer. -/
def pyRoundInt (q : ℚ) : Int :=
  let f := ⌊q⌋
  if q - f < 1 / 2 then f
  else if 1 / 2 < q - f then f + 1
  else if f % 2 = 0 then f else f + 1

/-- `round(q, 2)`: round to 2 decimal places.  Python floats are modelled as
exact rationals throughout. -/
def pyRound2 (q : ℚ) : ℚ :=
  (pyRoundInt (q * 100) : ℚ) / 100

/-- The padding character used by `_title`, U+00A0 (the source pads with a
non-breaking space). -/
def nbsp : Char := Char.ofNat 0xA0

/-- `_title(title, lvl) = title.rjust(len(title) + 4 * lvl, ' ')`:
`rjust` left-pads to the requested width, i.e. prepends `4 * lvl` pad
characters. -/
def renderTitle (title : String) (lvl : Nat) : String :=
  String.mk (List.replicate (4 * lvl) nbsp) ++ title

/-- One `<td>` cell of a generated row.  The markup around a cell is constant
text; what varies is the interpolated value, which we record: a string for the
text columns, the price (a float) and the page count (an int) for the numeric
columns.  (Python's float-to-string formatting is outside the model.) -/
inductive Cell where
  | text (s : String)
  | qnum (q : ℚ)
  | inum (n : Int)

/-- One `<tr>` row: its CSS class and its cells in order. -/
structure Row where
  cls : String
  cells : List Cell

/-- The value of `_crawl(item, lvl)`:
`{"table": ..., "price": ..., "pages": ...}`, with the HTML string modelled as
the list of rows it contains. -/
structure CrawlResult where
  table : List Row
  price : ℚ
  pages : Int

mutual
/-- `_crawl(item, lvl)` (gen_table.py).  For an interior node, the rows of all
children are computed first (`lines`), then the price is
`round(accumulate([l["price"] for l in lines]), 2)` and the pages
`accumulate([l["pages"] for l in lines])`; its own row holds the padded title,
the author, two `/` placeholders, and the two aggregates, followed by the
children's rows.  For a leaf, one row with the padded title, author,
book_size, the language label looked up in `languages`, price and page_count.
`none` models an uncaught exception (`KeyError` on an unknown language code,
`TypeError` from `accumulate` on an empty children list). -/
def crawl : BookNode → Nat → Option CrawlResult
  | .leaf a _ s lg pc pr t, lvl =>
      match languagesLookup lg with
      | none => none
      | some label =>
          some { table := [⟨"table-light",
                   [.text (renderTitle t lvl), .text a, .text s, .text label,
                    .qnum pr, .inum pc]⟩],
                 price := pr, pages := pc }
  | .interior a t ch, lvl =>
      match crawlChildren ch (lvl + 1) with
      | none => none
      | some lines =>
          match accumulate (lines.map (·.price)), accumulate (lines.map (·.pages)) with
          | some p, some pg =>
              some { table := ⟨"table-info",
                       [.text (renderTitle t lvl), .text a, .text "/", .text "/",
                        .qnum (pyRound2 p), .inum pg]⟩ ::
                       (lines.map (·.table)).flatten,
                     price := pyRound2 p, pages := pg }
          | _, _ => none

/-- `[ _crawl(x, lvl+1) for x in item["data"] ]`: the whole comprehension
fails if any element fails. -/
def crawlChildren : List BookNode → Nat → Option (List CrawlResult)
  | [], _ => some []
  | b :: bs, lvl =>
      match crawl b lvl, crawlChildren bs lvl with
      | some r, some rs => some (r :: rs)
      | _, _ => none
end

/-! ## Lemmas: pre-order walk -/

theorem preorderF_nil : preorderF [] = [] := by rw [preorderF]

theorem preorderF_cons_leaf (a c s lg : String) (pc : Int) (pr : ℚ) (t : String)
    (rest : List BookNode) :
    preorderF (.leaf a c s lg pc pr t :: rest) =
      .leaf a c s lg pc pr t :: preorderF rest := by
  rw [preorderF]

theorem preorderF_cons_interior (a t : String) (ch rest : List BookNode) :
    preorderF (.interior a t ch :: rest) =
      .interior a t ch :: (preorderF ch ++ preorderF rest) := by
  rw [preorderF]

theorem preorderF_ne_nil (b : BookNode) (rest : List BookNode) :
    preorderF (b :: rest) ≠ [] := by
  cases b <;> simp [preorderF]

/-- The general accumulator-passing specification of `find_book_by_index`: it
walks the forest in pre-order, incrementing `current` once per visited node;
it finds the `(target - current)`-th entry of the walk if that is in range and
otherwise returns `None` together with `current` advanced by the total node
count. -/
theorem find_book_by_index_spec (books : List BookNode) (target current : Int) :
    find_book_by_index books target current =
      if current < target ∧ target ≤ current + (preorderF books).length
      then ((preorderF books)[(target - current - 1).toNat]?, target)
      else (none, current + (preorderF books).length) := by
  induction books, target, current using find_book_by_index.induct with
  | case1 t c =>
      rw [find_book_by_index, preorderF_nil]
      rw [if_neg (by simp only [List.length_nil, Nat.cast_zero]; omega)]
      simp
  | case2 book rest c current' =>
      have hcur : current' = c + 1 := rfl
      cases book with
      | leaf a bc s lg pc pr t =>
          rw [find_book_by_index, if_pos rfl, preorderF_cons_leaf]
          rw [if_pos (by constructor <;> [omega; (push_cast; simp; omega)])]
          have h0 : (current' - c - 1).toNat = 0 := by omega
          rw [h0]
          simp [hcur]
      | interior a t ch =>
          rw [find_book_by_index, if_pos rfl, preorderF_cons_interior]
          rw [if_pos (by constructor <;> [omega; (push_cast; simp; omega)])]
          have h0 : (current' - c - 1).toNat = 0 := by omega
          rw [h0]
          simp [hcur]
  | case3 rest t c current' hne a ti ch found idx hfound ihch =>
      have hcur : current' = c + 1 := rfl
      rw [find_book_by_index, if_neg hne]
      rw [hfound]
      rw [ihch] at hfound
      by_cases hch : current' < t ∧ t ≤ current' + (preorderF ch).length
      · rw [if_pos hch] at hfound
        have hf : (preorderF ch)[(t - current' - 1).toNat]? = some found :=
          congrArg Prod.fst hfound
        have hi : t = idx := congrArg Prod.snd hfound
        have hlt : (t - current' - 1).toNat < (preorderF ch).length := by
          obtain ⟨h, -⟩ := List.getElem?_eq_some_iff.mp hf
          exact h
        rw [preorderF_cons_interior]
        rw [if_pos (by constructor <;> [omega; (simp; push_cast; omega)])]
        have hpos : (t - c - 1).toNat = (t - current' - 1).toNat + 1 := by omega
        rw [hpos, List.getElem?_cons_succ, List.getElem?_append_left (by omega), hf, hi]
      · rw [if_neg hch] at hfound
        exact absurd (congrArg Prod.fst hfound) (by simp)
  | case4 rest t c current' hne a ti ch idx hnone ihch ihrest =>
      have hcur : current' = c + 1 := rfl
      rw [find_book_by_index, if_neg hne]
      rw [hnone]
      show find_book_by_index rest t idx = _
      rw [ihch] at hnone
      by_cases hch : current' < t ∧ t ≤ current' + (preorderF ch).length
      · rw [if_pos hch] at hnone
        have hf : (preorderF ch)[(t - current' - 1).toNat]? = none :=
          congrArg Prod.fst hnone
        have hlt : (t - current' - 1).toNat < (preorderF ch).length := by omega
        rw [List.getElem?_eq_none_iff] at hf
        omega
      · rw [if_neg hch] at hnone
        have hidx : idx = current' + (preorderF ch).length :=
          (congrArg Prod.snd hnone).symm
        rw [ihrest, preorderF_cons_interior]
        by_cases hrest : idx < t ∧ t ≤ idx + (preorderF rest).length
        · rw [if_pos hrest]
          rw [if_pos (by constructor <;> [omega; (simp; push_cast; omega)])]
          have hpos : (t - c - 1).toNat =
              ((t - idx - 1).toNat + (preorderF ch).length) + 1 := by omega
          rw [hpos, List.getElem?_cons_succ,
            List.getElem?_append_right (by omega)]
          congr 2
          omega
        · rw [if_neg hrest]
          rw [if_neg (by simp; omega)]
          refine Prod.ext rfl ?_
          simp
          omega
  | case5 rest t c current' hne a bc s lg pc pr ti ihrest =>
      have hcur : current' = c + 1 := rfl
      rw [find_book_by_index, if_neg hne]
      rw [ihrest, preorderF_cons_leaf]
      by_cases hrest : current' < t ∧ t ≤ current' + (preorderF rest).length
      · rw [if_pos hrest]
        rw [if_pos (by constructor <;> [omega; (simp; push_cast; omega)])]
        have hpos : (t - c - 1).toNat = (t - current' - 1).toNat + 1 := by omega
        rw [hpos, List.getElem?_cons_succ]
      · rw [if_neg hrest]
        rw [if_neg (by simp; omega)]
        refine Prod.ext rfl ?_
        simp
        omega

/-- The total number of nodes (leaves and interiors) of a forest. -/
def countNodes : List BookNode → Nat
  | [] => 0
  | .leaf .. :: rest => 1 + countNodes rest
  | .interior _ _ ch :: rest => 1 + countNodes ch + countNodes rest

theorem preorderF_length (books : List BookNode) :
    (preorderF books).length = countNodes books := by
  induction books using preorderF.induct with
  | case1 => rw [preorderF, countNodes]; rfl
  | case2 a c s lg pc pr t rest ih =>
      rw [preorderF_cons_leaf, countNodes, List.length_cons, ih]
      omega
  | case3 a t ch rest ihch ihrest =>
      rw [preorderF_cons_interior, countNodes, List.length_cons,
        List.length_append, ihch, ihrest]
      omega

/-- C2.  `find_book_by_index(books, n)` (with the default starting index 0) is
equivalent to computing the full pre-order sequence and returning its `n`-th
entry (1-based): for `1 ≤ n ≤ N` (where `N = countNodes books` is the number
of entries of the walk) it returns that entry, and for `n ≤ 0` or `n > N` it
returns `None`. -/
theorem find_book_by_index_matches_preorder (books : List BookNode) (n : Int) :
    (preorderF books).length = countNodes books ∧
    (find_book_by_index books n 0).1 =
      if 1 ≤ n then (preorderF books)[(n - 1).toNat]? else none := by
  refine ⟨preorderF_length books, ?_⟩
  rw [find_book_by_index_spec]
  by_cases h : (0 : Int) < n ∧ n ≤ 0 + (preorderF books).length
  · rw [if_pos h, if_pos (by omega)]
    simp only [show n - 0 - 1 = n - 1 by ring]
  · rw [if_neg h]
    by_cases h1 : (1 : Int) ≤ n
    · rw [if_pos h1]
      symm
      rw [List.getElem?_eq_none_iff]
      omega
    · rw [if_neg h1]

/-! ## Lemmas: interactive listing vs. selection (C10) -/

/-- The lines printed by `display_books` list exactly the pre-order walk of
the forest (same nodes, same order); only the numbering differs. -/
theorem display_books_from_nodes (books : List BookNode) (indent i : Nat) :
    (display_books_from books indent i).map (fun l => l.2.2) =
      (preorderF books).map (fun b => (b.title, b.author)) := by
  induction books, indent, i using display_books_from.induct with
  | case1 indent i => rw [display_books_from, preorderF_nil]; rfl
  | case2 a c s lg pc pr t rest indent i ih =>
      rw [display_books_from, preorderF_cons_leaf]
      simp only [List.map_cons, ih]
      rfl
  | case3 a t ch rest indent i ihch ihrest =>
      rw [display_books_from, preorderF_cons_interior]
      simp only [List.map_cons, List.map_append, ihch, ihrest]
      rfl

/-- Every number shown by `display_books` is at least the starting index of
its enumeration (`enumerate(..., 1)` starts at 1 at every level). -/
theorem display_books_from_idx_pos (books : List BookNode) (indent i : Nat)
    (hi : 1 ≤ i) :
    ∀ l ∈ display_books_from books indent i, 1 ≤ l.2.1 := by
  induction books, indent, i using display_books_from.induct with
  | case1 indent i => intro l hl; rw [display_books_from] at hl; cases hl
  | case2 a c s lg pc pr t rest indent i ih =>
      intro l hl
      rw [display_books_from] at hl
      rcases List.mem_cons.mp hl with h | h
      · subst h; exact hi
      · exact ih (by omega) l h
  | case3 a t ch rest indent i ihch ihrest =>
      intro l hl
      rw [display_books_from] at hl
      rcases List.mem_cons.mp hl with h | h
      · subst h; exact hi
      · rcases List.mem_append.mp h with h' | h'
        · exact ihch (by omega) l h'
        · exact ihrest (by omega) l h'

/-- C10.  The interactive listing numbers nodes by their 1-based position
among their siblings (restarting at every nesting level), while
`find_book_by_index` numbers nodes by the global pre-order sequence.  For the
line at (0-based) position `k` of the listing: it shows the `k`-th node of the
pre-order walk; the number that selects that node is `k + 1`; and whenever the
displayed number differs from `k + 1`, entering the displayed number selects
the node at a different pre-order position. -/
theorem displayed_number_vs_selection (books : List BookNode) (k : Nat)
    (line : Nat × Nat × String × String)
    (hline : (display_books books)[k]? = some line) :
    ((preorderF books)[k]?).map (fun b => (b.title, b.author)) = some line.2.2 ∧
    (find_book_by_index books ((k : Int) + 1) 0).1 = (preorderF books)[k]? ∧
    (line.2.1 ≠ k + 1 →
      (find_book_by_index books (line.2.1 : Int) 0).1 =
        (preorderF books)[line.2.1 - 1]? ∧ line.2.1 - 1 ≠ k) := by
  have hmap := display_books_from_nodes books 0 1
  have hlen : (display_books books).length = (preorderF books).length := by
    have := congrArg List.length hmap
    simpa using this
  have hk : k < (preorderF books).length := by
    rw [← hlen]
    exact List.getElem?_eq_some_iff.mp hline |>.1
  refine ⟨?_, ?_, ?_⟩
  · have h1 : ((display_books books).map (fun l => l.2.2))[k]? = some line.2.2 := by
      rw [List.getElem?_map, hline]
      rfl
    rw [display_books] at h1
    rw [hmap] at h1
    rw [List.getElem?_map] at h1
    exact h1
  · rw [find_book_by_index_spec]
    rw [if_pos (by constructor <;> [omega; (push_cast; omega)])]
    have : ((k : Int) + 1 - 0 - 1).toNat = k := by omega
    rw [this]
  · intro hne
    have hpos : 1 ≤ line.2.1 := by
      have hmem : line ∈ display_books books := List.getElem?_mem hline
      exact display_books_from_idx_pos books 0 1 le_rfl line hmem
    constructor
    · rw [find_book_by_index_spec]
      by_cases hs : (line.2.1 : Int) ≤ 0 + (preorderF books).length
      · rw [if_pos (by constructor <;> omega)]
        have : ((line.2.1 : Int) - 0 - 1).toNat = line.2.1 - 1 := by omega
        rw [this]
      · rw [if_neg (by omega)]
        symm
        rw [List.getElem?_eq_none_iff]
        omega
    · omega

/-! ## Lemmas: the sorter -/

/-- Ascending title order between two nodes, as a Boolean (Python's `<=` on
the sort keys). -/
def titleLeB (x y : BookNode) : Bool := decide (x.title ≤ y.title)

/-- One list level is (weakly) sorted by ascending title. -/
def sortedByTitleB : List BookNode → Bool
  | [] => true
  | b :: rest => rest.all (titleLeB b) && sortedByTitleB rest

mutual
/-- Every `data` list inside this node, at every depth, is sorted by title. -/
def nodeSortedB : BookNode → Bool
  | .leaf .. => true
  | .interior _ _ ch => sortedByTitleB ch && forestNodesSortedB ch

/-- Every `data` list inside any node of this forest is sorted by title
(says nothing about the order of the forest itself). -/
def forestNodesSortedB : List BookNode → Bool
  | [] => true
  | b :: bs => nodeSortedB b && forestNodesSortedB bs
end

theorem sortedByTitleB_iff (l : List BookNode) :
    sortedByTitleB l = true ↔ l.Pairwise (fun x y => x.title ≤ y.title) := by
  induction l with
  | nil => simp [sortedByTitleB]
  | cons b rest ih =>
      rw [sortedByTitleB]
      simp only [Bool.and_eq_true, List.all_eq_true, List.pairwise_cons, ih, titleLeB,
        decide_eq_true_eq]

theorem forestNodesSortedB_iff (l : List BookNode) :
    forestNodesSortedB l = true ↔ ∀ b ∈ l, nodeSortedB b = true := by
  induction l with
  | nil => rw [forestNodesSortedB]; simp
  | cons b bs ih =>
      rw [forestNodesSortedB]
      simp [ih]

/-- Strong induction over the nested tree type: to prove `P` for every node
it suffices to prove it for leaves and for interiors assuming it for all
children. -/
def BookNode.strongInd {P : BookNode → Prop}
    (hleaf : ∀ a c s lg pc pr t, P (.leaf a c s lg pc pr t))
    (hint : ∀ a t ch, (∀ x ∈ ch, P x) → P (.interior a t ch)) :
    ∀ b, P b
  | .leaf a c s lg pc pr t => hleaf a c s lg pc pr t
  | .interior a t ch =>
      hint a t ch (fun x _hx => BookNode.strongInd hleaf hint x)
termination_by b => sizeOf b
decreasing_by
  have h1 : sizeOf x < sizeOf ch := List.sizeOf_lt_of_mem _hx
  simp only [BookNode.interior.sizeOf_spec]
  omega

theorem mem_insertByTitle {x b : BookNode} {l : List BookNode} :
    x ∈ insertByTitle b l ↔ x = b ∨ x ∈ l := by
  induction l with
  | nil => simp [insertByTitle]
  | cons c cs ih =>
      rw [insertByTitle]
      by_cases h : c.title < b.title
      · rw [if_pos h]
        simp [ih]
        tauto
      · rw [if_neg h]
        simp [List.mem_cons]

theorem insertByTitle_perm (b : BookNode) (l : List BookNode) :
    List.Perm (insertByTitle b l) (b :: l) := by
  induction l with
  | nil => rw [insertByTitle]
  | cons c cs ih =>
      rw [insertByTitle]
      by_cases h : c.title < b.title
      · rw [if_pos h]
        exact (ih.cons c).trans (List.Perm.swap b c cs)
      · rw [if_neg h]

theorem pySorted_perm (l : List BookNode) : List.Perm (pySorted l) l := by
  induction l with
  | nil => rw [pySorted]
  | cons b bs ih =>
      rw [pySorted]
      exact (insertByTitle_perm b (pySorted bs)).trans (ih.cons b)

theorem pairwise_insertByTitle {b : BookNode} {l : List BookNode}
    (h : l.Pairwise (fun x y => x.title ≤ y.title)) :
    (insertByTitle b l).Pairwise (fun x y => x.title ≤ y.title) := by
  induction l with
  | nil => simp [insertByTitle]
  | cons c cs ih =>
      rw [insertByTitle]
      rw [List.pairwise_cons] at h
      by_cases hcb : c.title < b.title
      · rw [if_pos hcb]
        rw [List.pairwise_cons]
        refine ⟨?_, ih h.2⟩
        intro x hx
        rcases mem_insertByTitle.mp hx with rfl | hx
        · exact le_of_lt hcb
        · exact h.1 x hx
      · rw [if_neg hcb]
        rw [List.pairwise_cons]
        refine ⟨?_, List.pairwise_cons.mpr h⟩
        intro x hx
        rcases List.mem_cons.mp hx with rfl | hx
        · exact le_of_not_lt hcb
        · exact le_trans (le_of_not_lt hcb) (h.1 x hx)

theorem pairwise_pySorted (l : List BookNode) :
    (pySorted l).Pairwise (fun x y => x.title ≤ y.title) := by
  induction l with
  | nil => rw [pySorted]; exact List.Pairwise.nil
  | cons b bs ih => rw [pySorted]; exact pairwise_insertByTitle ih

theorem insertByTitle_of_forall_le {b : BookNode} {l : List BookNode}
    (h : ∀ y ∈ l, b.title ≤ y.title) : insertByTitle b l = b :: l := by
  cases l with
  | nil => rw [insertByTitle]
  | cons c cs =>
      rw [insertByTitle, if_neg (not_lt_of_le (h c (List.mem_cons_self c cs)))]

theorem pySorted_of_pairwise {l : List BookNode}
    (h : l.Pairwise (fun x y => x.title ≤ y.title)) : pySorted l = l := by
  induction l with
  | nil => rw [pySorted]
  | cons b bs ih =>
      rw [List.pairwise_cons] at h
      rw [pySorted, ih h.2, insertByTitle_of_forall_le h.1]

theorem filter_insertByTitle_pos {b : BookNode} {t : String} (l : List BookNode)
    (hb : b.title = t) :
    (insertByTitle b l).filter (fun x => x.title == t) =
      b :: l.filter (fun x => x.title == t) := by
  induction l with
  | nil => simp [insertByTitle, List.filter, hb]
  | cons c cs ih =>
      rw [insertByTitle]
      by_cases h : c.title < b.title
      · rw [if_pos h]
        have hc : (c.title == t) = false := by
          simp only [beq_eq_false_iff_ne, ne_eq]
          intro hct
          rw [hct, ← hb] at h
          exact lt_irrefl _ h
        rw [List.filter_cons_of_neg (by simp [hc]), ih,
          List.filter_cons_of_neg (by simp [hc])]
      · rw [if_neg h]
        rw [List.filter_cons_of_pos (by simp [hb])]

theorem filter_insertByTitle_neg {b : BookNode} {t : String} (l : List BookNode)
    (hb : b.title ≠ t) :
    (insertByTitle b l).filter (fun x => x.title == t) =
      l.filter (fun x => x.title == t) := by
  induction l with
  | nil =>
      rw [insertByTitle, List.filter_cons_of_neg (by simp [hb]), List.filter_nil]
  | cons c cs ih =>
      rw [insertByTitle]
      by_cases h : c.title < b.title
      · rw [if_pos h]
        by_cases hc : c.title = t
        · rw [List.filter_cons_of_pos (by simp [hc]), ih,
            List.filter_cons_of_pos (by simp [hc])]
        · rw [List.filter_cons_of_neg (by simp [hc]), ih,
            List.filter_cons_of_neg (by simp [hc])]
      · rw [if_neg h]
        rw [List.filter_cons_of_neg (by simp [hb])]

theorem filter_pySorted (l : List BookNode) (t : String) :
    (pySorted l).filter (fun x => x.title == t) =
      l.filter (fun x => x.title == t) := by
  induction l with
  | nil => rw [pySorted]
  | cons b bs ih =>
      rw [pySorted]
      by_cases hb : b.title = t
      · rw [filter_insertByTitle_pos _ hb, ih,
          List.filter_cons_of_pos (by simp [hb])]
      · rw [filter_insertByTitle_neg _ hb, ih,
          List.filter_cons_of_neg (by simp [hb])]

theorem sortForest_eq_map (l : List BookNode) :
    sortForest l = l.map sortNode := by
  induction l with
  | nil => rw [sortForest]; rfl
  | cons b bs ih => rw [sortForest, ih]; rfl

theorem sortNode_title (b : BookNode) : (sortNode b).title = b.title := by
  cases b with
  | leaf a c s lg pc pr t => rw [sortNode]
  | interior a t ch => rw [sortNode]; rfl

theorem sortNode_author (b : BookNode) : (sortNode b).author = b.author := by
  cases b with
  | leaf a c s lg pc pr t => rw [sortNode]
  | interior a t ch => rw [sortNode]; rfl

theorem nodeSortedB_sortNode (b : BookNode) : nodeSortedB (sortNode b) = true := by
  induction b using BookNode.strongInd with
  | hleaf a c s lg pc pr t => rw [sortNode, nodeSortedB]
  | hint a t ch ih =>
      rw [sortNode, nodeSortedB]
      simp only [Bool.and_eq_true]
      constructor
      · rw [sortedByTitleB_iff]
        exact pairwise_pySorted _
      · rw [forestNodesSortedB_iff]
        intro x hx
        have hx' : x ∈ sortForest ch := (pySorted_perm _).mem_iff.mp hx
        rw [sortForest_eq_map] at hx'
        obtain ⟨c, hc, rfl⟩ := List.mem_map.mp hx'
        exact ih c hc

theorem sortNode_of_nodeSortedB {b : BookNode} (h : nodeSortedB b = true) :
    sortNode b = b := by
  induction b using BookNode.strongInd with
  | hleaf a c s lg pc pr t => rw [sortNode]
  | hint a t ch ih =>
      rw [nodeSortedB, Bool.and_eq_true] at h
      rw [sortNode]
      have hch : sortForest ch = ch := by
        rw [sortForest_eq_map]
        have := forestNodesSortedB_iff ch |>.mp h.2
        calc ch.map sortNode = ch.map id := by
              apply List.map_congr_left
              intro x hx
              exact ih x hx (this x hx)
          _ = ch := List.map_id ch
      rw [hch, pySorted_of_pairwise ((sortedByTitleB_iff ch).mp h.1)]

/-- `item["data"]` of an interior node (`[]` for a leaf, which has none). -/
def BookNode.children : BookNode → List BookNode
  | .leaf .. => []
  | .interior _ _ d => d

/-- C1 (amended).  `_sort_data` returns a forest ordered by title and does
not reorder the top-level list object (the original list keeps the same
nodes, hence the same titles and authors, in the same positions), but it
sorts every Interior node's children sequence in place; the original tree is
left fully unchanged only when every Interior's children sequence (at every
depth) is already sorted by title. -/
theorem sort_data_sorted_but_mutates_children (data : List BookNode) :
    sortedByTitleB (sort_data data) = true ∧
    (sort_data_post data).map BookNode.title = data.map BookNode.title ∧
    (sort_data_post data).map BookNode.author = data.map BookNode.author ∧
    (forestNodesSortedB data = true → sort_data_post data = data) := by
  refine ⟨?_, ?_, ?_, ?_⟩
  · rw [sortedByTitleB_iff, sort_data]
    exact pairwise_pySorted _
  · rw [sort_data_post, sortForest_eq_map, List.map_map]
    apply List.map_congr_left
    intro b _
    exact sortNode_title b
  · rw [sort_data_post, sortForest_eq_map, List.map_map]
    apply List.map_congr_left
    intro b _
    exact sortNode_author b
  · intro h
    rw [sort_data_post, sortForest_eq_map]
    have hall := (forestNodesSortedB_iff data).mp h
    calc data.map sortNode = data.map id := by
          apply List.map_congr_left
          intro x hx
          exact sortNode_of_nodeSortedB (hall x hx)
      _ = data := List.map_id data

/-- C1 witness: on a catalog whose every interior has an already-sorted
children list, `_sort_data` leaves the original unchanged. -/
theorem sort_data_sorted_but_mutates_children_witness :
    sort_data_post
        [.interior "Jane Doe" "Complete Works"
          [.leaf "Jane Doe" "Philosophy" "A5" "eng" 200 15 "Volume 1"]] =
      [.interior "Jane Doe" "Complete Works"
        [.leaf "Jane Doe" "Philosophy" "A5" "eng" 200 15 "Volume 1"]] :=
  (sort_data_sorted_but_mutates_children _).2.2.2
    (by simp [forestNodesSortedB, nodeSortedB, sortedByTitleB])

/-- C1 counterexample: `_sort_data` does *not* leave every Interior node's
children sequence unchanged.  On a catalog with one interior whose two parts
are stored in non-alphabetical order, the inner `sort` reorders the stored
children in place, so the original order can no longer be saved. -/
theorem sort_data_mutates_original :
    sort_data_post
        [.interior "Jane Doe" "Complete Works"
          [.leaf "Jane Doe" "Philosophy" "A5" "eng" 220 16 "Volume 2",
           .leaf "Jane Doe" "Philosophy" "A5" "eng" 200 15 "Volume 1"]] ≠
      [.interior "Jane Doe" "Complete Works"
        [.leaf "Jane Doe" "Philosophy" "A5" "eng" 220 16 "Volume 2",
         .leaf "Jane Doe" "Philosophy" "A5" "eng" 200 15 "Volume 1"]] := by
  have hlt : ("Volume 1" : String) < "Volume 2" := by
    rw [String.lt_iff_toList_lt]
    decide
  have hnlt : ¬ ("Volume 2" : String) < "Volume 1" := by
    rw [String.lt_iff_toList_lt]
    decide
  simp [sort_data_post, sortForest, sortNode, pySorted, insertByTitle,
    BookNode.title, hlt, hnlt]

/-- C7.  The forest returned by `_sort_data` is ordered by ascending title
(native code-point comparison) at every level — among the roots, and
independently among every Interior's children — and the sort is stable: at
the roots and inside every Interior, the nodes sharing any given title keep
their original relative order (each node recursively sorted, order
preserved). -/
theorem sort_data_sorted_stable (data : List BookNode) :
    sortedByTitleB (sort_data data) = true ∧
    forestNodesSortedB (sort_data data) = true ∧
    (∀ t, (sort_data data).filter (fun b => b.title == t) =
      (data.filter (fun b => b.title == t)).map sortNode) ∧
    (∀ a ti ch t,
      ((sortNode (BookNode.interior a ti ch)).children).filter (fun b => b.title == t) =
        (ch.filter (fun b => b.title == t)).map sortNode) := by
  have key : ∀ l : List BookNode, ∀ t : String,
      (pySorted (sortForest l)).filter (fun b => b.title == t) =
        (l.filter (fun b => b.title == t)).map sortNode := by
    intro l t
    rw [filter_pySorted, sortForest_eq_map, List.filter_map]
    congr 1
    apply List.filter_congr
    intro b _
    simp only [Function.comp_apply, sortNode_title b]
  refine ⟨?_, ?_, ?_, ?_⟩
  · rw [sortedByTitleB_iff, sort_data]
    exact pairwise_pySorted _
  · rw [forestNodesSortedB_iff]
    intro b hb
    rw [sort_data] at hb
    have hb' : b ∈ sortForest data := (pySorted_perm _).mem_iff.mp hb
    rw [sortForest_eq_map] at hb'
    obtain ⟨c, _, rfl⟩ := List.mem_map.mp hb'
    exact nodeSortedB_sortNode c
  · intro t
    rw [sort_data]
    exact key data t
  · intro a ti ch t
    rw [sortNode, BookNode.children]
    exact key ch t

/-! ## Lemmas: author propagation (C4) and part append (C5) -/

theorem update_author_map (l : List BookNode) (na : String) :
    (preorderF (update_author_recursively l na)).map BookNode.author =
      List.replicate (preorderF (update_author_recursively l na)).length na := by
  induction l, na using update_author_recursively.induct with
  | case1 na => rw [update_author_recursively, preorderF_nil]; rfl
  | case2 a0 c s lg pc pr t rest na ih =>
      rw [update_author_recursively] at *
      rw [preorderF_cons_leaf]
      simp only [List.map_cons, List.length_cons, ih, BookNode.author]
      rw [List.replicate_succ]
  | case3 a0 t ch rest na ihch ihrest =>
      rw [update_author_recursively] at *
      rw [preorderF_cons_interior]
      simp only [List.map_cons, List.map_append, List.length_cons,
        List.length_append, ihch, ihrest, BookNode.author]
      rw [List.replicate_succ, List.replicate_add]

/-- C4.  Editing the author of a multi-part book sets the new author on the
interior node itself and, recursively and unconditionally, on every
descendant (leaf or interior, at any depth): afterwards every node of the
subtree carries exactly the new author. -/
theorem rename_author_propagates (a t : String) (ch : List BookNode) (na : String) :
    (rename_interior_author a t ch na).author = na ∧
    (preorderF [rename_interior_author a t ch na]).map BookNode.author =
      List.replicate (countNodes [rename_interior_author a t ch na]) na := by
  constructor
  · rw [rename_interior_author]; rfl
  · rw [← preorderF_length]
    rw [rename_interior_author]
    rw [preorderF_cons_interior, preorderF_nil, List.append_nil]
    simp only [List.map_cons, List.length_cons, BookNode.author]
    rw [update_author_map, List.replicate_succ]

/-- C5.  Appending a new part to a multi-part book appends exactly one leaf
at the end of the `data` sequence: the count grows by one, the existing
children are untouched, and the appended leaf carries the interior's author
(the flow never asks for an author for the new part), along with the supplied
title, category, size, language, page count and price. -/
theorem add_part_appends_with_parent_author (a t : String) (ch : List BookNode)
    (cat sz lang ttl : String) (pc : Int) (pr : ℚ) :
    ∃ ch' : List BookNode,
      add_part_to_book (.interior a t ch) cat sz lang ttl pc pr =
        some (.interior a t ch') ∧
      ch'.length = ch.length + 1 ∧
      ch'.take ch.length = ch ∧
      ch'.getLast? = some (.leaf a cat sz lang pc pr ttl) ∧
      (ch'.getLast?.map BookNode.author) = some a := by
  refine ⟨ch ++ [BookNode.leaf a cat sz lang pc pr ttl], ?_, ?_, ?_, ?_, ?_⟩
  · rfl
  · simp
  · simp
  · rw [List.getLast?_append]
    rfl
  · rw [List.getLast?_append]
    rfl

/-! ## Lemmas: aggregation (C3, C9) and language labels (C8) -/

mutual
/-- The aggregation function as the spec states it (the claim side of the
refinement): a Leaf yields its own `(price, page_count)`; an Interior yields
the element-wise sum of its children's aggregates, with the summed price
rounded to 2 decimals at this level (so nested interiors sum the already
rounded inner totals) and the page total an unrounded integer sum. -/
def aggregateSpec : BookNode → ℚ × Int
  | .leaf _ _ _ _ pc pr _ => (pr, pc)
  | .interior _ _ ch => (pyRound2 (aggChildrenSpec ch).1, (aggChildrenSpec ch).2)

/-- Element-wise sum of the aggregates of a list of children. -/
def aggChildrenSpec : List BookNode → ℚ × Int
  | [] => (0, 0)
  | b :: bs =>
      ((aggregateSpec b).1 + (aggChildrenSpec bs).1,
       (aggregateSpec b).2 + (aggChildrenSpec bs).2)
end

theorem foldl_add_eq_add_sum {α : Type} [AddCommMonoid α] (x : α) (l : List α) :
    l.foldl (· + ·) x = x + l.sum := by
  induction l generalizing x with
  | nil => simp
  | cons y ys ih =>
      rw [List.foldl_cons, ih, List.sum_cons]
      rw [add_assoc]

theorem accumulate_eq_none_iff {α : Type} [AddCommMonoid α] (l : List α) :
    accumulate l = none ↔ l = [] := by
  cases l with
  | nil => simp [accumulate]
  | cons x xs => simp [accumulate]

theorem accumulate_eq_sum {α : Type} [AddCommMonoid α] (l : List α) (h : l ≠ []) :
    accumulate l = some l.sum := by
  cases l with
  | nil => exact absurd rfl h
  | cons x xs =>
      rw [accumulate, List.sum_cons]
      rw [foldl_add_eq_add_sum]

theorem crawlChildren_forall₂ (l : List BookNode) (lvl : Nat)
    (rs : List CrawlResult) (h : crawlChildren l lvl = some rs) :
    List.Forall₂ (fun b r => crawl b lvl = some r) l rs := by
  induction l generalizing rs with
  | nil =>
      rw [crawlChildren] at h
      cases h
      exact List.Forall₂.nil
  | cons b bs ih =>
      rw [crawlChildren] at h
      cases hb : crawl b lvl with
      | none => rw [hb] at h; cases h
      | some r =>
          rw [hb] at h
          cases hbs : crawlChildren bs lvl with
          | none => rw [hbs] at h; cases h
          | some rs' =>
              rw [hbs] at h
              cases h
              exact List.Forall₂.cons hb (ih rs' hbs)

/-- C3.  Whenever `_crawl` succeeds on a node, the price/pages it reports are
exactly the spec's aggregate: a Leaf's own price and page count, and for an
Interior the element-wise sum of the children's aggregates with the price
rounded to 2 decimal places at every interior level (nested interiors sum the
already-rounded inner totals) and the page total an unrounded sum. -/
theorem crawl_price_pages_aggregate (b : BookNode) (lvl : Nat) (r : CrawlResult)
    (h : crawl b lvl = some r) : (r.price, r.pages) = aggregateSpec b := by
  induction b using BookNode.strongInd generalizing lvl r with
  | hleaf a c s lg pc pr t =>
      rw [crawl] at h
      cases hl : languagesLookup lg with
      | none => rw [hl] at h; cases h
      | some label =>
          rw [hl] at h
          cases h
          rw [aggregateSpec]
  | hint a t ch ih =>
      rw [crawl] at h
      cases hch : crawlChildren ch (lvl + 1) with
      | none => rw [hch] at h; cases h
      | some lines =>
          rw [hch] at h
          dsimp only at h
          have hf := crawlChildren_forall₂ ch (lvl + 1) lines hch
          have hne : lines ≠ [] → True := fun _ => trivial
          cases hacc : accumulate (lines.map (·.price)) with
          | none => rw [hacc] at h; cases h
          | some p =>
              rw [hacc] at h
              cases hacc2 : accumulate (lines.map (·.pages)) with
              | none => rw [hacc2] at h; cases h
              | some pg =>
                  rw [hacc2] at h
                  cases h
                  rw [aggregateSpec]
                  have hsum : (lines.map (·.price)).sum = (aggChildrenSpec ch).1 ∧
                      (lines.map (·.pages)).sum = (aggChildrenSpec ch).2 := by
                    clear hacc hacc2 hch hne
                    induction hf with
                    | nil => simp [aggChildrenSpec]
                    | cons hbr htail ihtail =>
                        rename_i c r ctail rtail
                        have hc := ih c (List.mem_cons_self c ctail) _ _ hbr
                        have ihr := ihtail (fun x hx => ih x (List.mem_cons_of_mem c hx))
                        rw [aggChildrenSpec]
                        simp only [List.map_cons, List.sum_cons]
                        have h1 : r.price = (aggregateSpec c).1 := by rw [← hc]
                        have h2 : r.pages = (aggregateSpec c).2 := by rw [← hc]
                        constructor
                        · rw [h1, ihr.1]
                        · rw [h2, ihr.2]
                  have hpne : lines.map (·.price) ≠ [] := by
                    intro hc
                    rw [hc] at hacc
                    rw [accumulate] at hacc
                    cases hacc
                  have hp : p = (lines.map (·.price)).sum := by
                    rw [accumulate_eq_sum _ hpne] at hacc
                    cases hacc
                    rfl
                  have hgne : lines.map (·.pages) ≠ [] := by
                    intro hc
                    rw [hc] at hacc2
                    rw [accumulate] at hacc2
                    cases hacc2
                  have hg : pg = (lines.map (·.pages)).sum := by
                    rw [accumulate_eq_sum _ hgne] at hacc2
                    cases hacc2
                    rfl
                  rw [hp, hg, hsum.1, hsum.2]

/-- C3 witness: on the spec's nested example (two leaves priced 20.00 and
22.00 under an inner Interior, itself under an outer Interior), `_crawl`
succeeds and reports exactly the spec aggregate with rounding applied at each
interior level. -/
theorem crawl_price_pages_aggregate_witness :
    ∃ r, crawl
        (.interior "Complex Author" "Main Series"
          [.interior "Complex Author" "Sub-Series 1"
            [.leaf "Complex Author" "History" "Digest" "lat" 300 20 "Part 1",
             .leaf "Complex Author" "History" "Digest" "lat" 350 22 "Part 2"]]) 0
      = some r ∧
    (r.price, r.pages) =
      aggregateSpec
        (.interior "Complex Author" "Main Series"
          [.interior "Complex Author" "Sub-Series 1"
            [.leaf "Complex Author" "History" "Digest" "lat" 300 20 "Part 1",
             .leaf "Complex Author" "History" "Digest" "lat" 350 22 "Part 2"]]) := by
  have h : (crawl
      (.interior "Complex Author" "Main Series"
        [.interior "Complex Author" "Sub-Series 1"
          [.leaf "Complex Author" "History" "Digest" "lat" 300 20 "Part 1",
           .leaf "Complex Author" "History" "Digest" "lat" 350 22 "Part 2"]]) 0).isSome
      = true := by
    simp [crawl, crawlChildren, languagesLookup, languages, List.find?, accumulate]
  obtain ⟨r, hr⟩ := Option.isSome_iff_exists.mp h
  exact ⟨r, hr, crawl_price_pages_aggregate _ 0 r hr⟩

/-- C9.  `accumulate` (a `reduce` with no initial value) fails exactly on the
empty list; `_crawl` on an Interior with an empty children list therefore
fails; and whenever the children list is non-empty, the `lines` computed for
it (one per child) are non-empty, so the two `accumulate` calls inside
`_crawl` cannot hit the failing branch. -/
theorem accumulate_fails_iff_no_children (ch : List BookNode) (lvl : Nat)
    (rs : List CrawlResult) :
    (∀ l : List ℚ, accumulate l = none ↔ l = []) ∧
    (∀ l : List Int, accumulate l = none ↔ l = []) ∧
    (∀ a t : String, crawl (.interior a t []) lvl = none) ∧
    (ch ≠ [] → crawlChildren ch (lvl + 1) = some rs →
      accumulate (rs.map (·.price)) ≠ none ∧
      accumulate (rs.map (·.pages)) ≠ none) := by
  refine ⟨fun l => accumulate_eq_none_iff l, fun l => accumulate_eq_none_iff l,
    ?_, ?_⟩
  · intro a t
    simp [crawl, crawlChildren, accumulate]
  · intro hne hch
    have hlen := (crawlChildren_forall₂ ch (lvl + 1) rs hch).length_eq
    have hrs : rs ≠ [] := by
      intro hrs0
      rw [hrs0] at hlen
      cases ch with
      | nil => exact hne rfl
      | cons x xs => cases hlen
    constructor
    · rw [accumulate_eq_sum _ (by simpa using hrs)]
      intro hc
      cases hc
    · rw [accumulate_eq_sum _ (by simpa using hrs)]
      intro hc
      cases hc

/-- C9 witness: a one-leaf children list yields a non-empty `lines` list on
which both `accumulate` calls succeed (and the empty accumulate is `none`). -/
theorem accumulate_fails_iff_no_children_witness :
    ∃ rs, crawlChildren
        [.leaf "Jane Doe" "Philosophy" "A5" "eng" 200 15 "Volume 1"] 1 = some rs ∧
      accumulate (rs.map (·.price)) ≠ none ∧
      accumulate (rs.map (·.pages)) ≠ none := by
  have h : (crawlChildren
      [.leaf "Jane Doe" "Philosophy" "A5" "eng" 200 15 "Volume 1"] 1).isSome = true := by
    simp [crawlChildren, crawl, languagesLookup, languages, List.find?]
  obtain ⟨rs, hrs⟩ := Option.isSome_iff_exists.mp h
  exact ⟨rs, hrs,
    (accumulate_fails_iff_no_children _ 0 rs).2.2.2 (by simp) hrs⟩

/-- C8 counterexample: for a non-empty language code outside the table
(here `"deu"`), rendering does not produce a row with a sentinel marker — the
dict lookup `languages[item["language"]]` fails (`KeyError`) and `_crawl`
produces no output at all. -/
theorem unknown_language_code_fails_rendering :
    crawl (.leaf "John Smith" "Music" "A4" "deu" 150 (25 / 2)
      "Music Theory Basics") 0 = none := by
  simp [crawl, languagesLookup, languages, List.find?]

/-- C8 (amended).  A Leaf row resolves its language code through the fixed
table `eng→Anglais`, `fra→Français`, `lat→Latin`, `heb→Hébreu`; the *empty*
code is itself a key of the table and resolves to the visible error marker
`PROBLEM` (rather than a silently blank cell), while every *other* code
outside the table makes the lookup — and hence the whole rendering — fail
with an error instead of producing any marker. -/
theorem language_label_resolution (a c s : String) (pc : Int) (pr : ℚ)
    (t : String) (lvl : Nat) :
    languagesLookup "eng" = some "Anglais" ∧
    languagesLookup "fra" = some "Français" ∧
    languagesLookup "lat" = some "Latin" ∧
    languagesLookup "heb" = some "Hébreu" ∧
    languagesLookup "" = some "PROBLEM\n\n\n" ∧
    crawl (.leaf a c s "" pc pr t) lvl =
      some ⟨[⟨"table-light",
        [.text (renderTitle t lvl), .text a, .text s,
         .text "PROBLEM\n\n\n", .qnum pr, .inum pc]⟩], pr, pc⟩ ∧
    (∀ lg, lg ∉ languages.map Prod.fst →
      crawl (.leaf a c s lg pc pr t) lvl = none) := by
  refine ⟨by simp [languagesLookup, languages, List.find?],
    by simp [languagesLookup, languages, List.find?],
    by simp [languagesLookup, languages, List.find?],
    by simp [languagesLookup, languages, List.find?],
    by simp [languagesLookup, languages, List.find?], ?_, ?_⟩
  · rw [crawl]
    rw [show languagesLookup "" = some "PROBLEM\n\n\n" from by
      simp [languagesLookup, languages, List.find?]]
  · intro lg hlg
    have hnone : languagesLookup lg = none := by
      rw [languagesLookup]
      rw [List.find?_eq_none.mpr]
      · rfl
      · intro p hp hk
        apply hlg
        rw [← of_decide_eq_true hk]
        exact List.mem_map_of_mem Prod.fst hp
    rw [crawl, hnone]

/-- C8 witness: the unknown code `"deu"` is not a key of the table, and the
rendering of a leaf carrying it fails. -/
theorem language_label_resolution_witness :
    crawl (.leaf "John Smith" "Music" "A4" "deu" 150 (25 / 2)
      "Music Theory Basics") 0 = none :=
  (language_label_resolution "John Smith" "Music" "A4" 150 (25 / 2)
      "Music Theory Basics" 0).2.2.2.2.2.2 "deu" (by decide)

/-- C10 witness: on a catalog with one multi-part book, the first part is the
line at position 1 of the listing but shows the number 1; entering 1 selects
the pre-order node 0 (the interior), not the part. -/
theorem displayed_number_vs_selection_witness :
    (find_book_by_index
        [.interior "Complex Author" "Main Series"
          [.leaf "Complex Author" "History" "Digest" "lat" 300 20 "Part 1",
           .leaf "Complex Author" "History" "Digest" "lat" 350 22 "Part 2"]]
        ((1 : Nat) : Int) 0).1 =
      (preorderF
        [.interior "Complex Author" "Main Series"
          [.leaf "Complex Author" "History" "Digest" "lat" 300 20 "Part 1",
           .leaf "Complex Author" "History" "Digest" "lat" 350 22 "Part 2"]])[
        (1 : Nat) - 1]? ∧
    (1 : Nat) - 1 ≠ 1 :=
  (displayed_number_vs_selection
      [.interior "Complex Author" "Main Series"
        [.leaf "Complex Author" "History" "Digest" "lat" 300 20 "Part 1",
         .leaf "Complex Author" "History" "Digest" "lat" 350 22 "Part 2"]]
      1 (1, 1, "Part 1", "Complex Author")
      (by simp [display_books, display_books_from])).2.2 (by decide)

end PrintedBooks

namespace PrintedBooks

inductive Json where
  | null
  | bool (b : Bool)
  | int (n : Int)
  | float (m : Int) (e : Nat)
  | str (s : String)
  | arr (items : List Json)
  | obj (members : List (String × Json))

/-- Decimal digits of `n`, most significant first. -/
def natDigits (n : Nat) : List Char :=
  if n < 10 then [Nat.digitChar n]
  else natDigits (n / 10) ++ [Nat.digitChar (n % 10)]
termination_by n
decreasing_by
  have : 10 ≤ n := Nat.le_of_not_lt (by assumption)
  omega

def isDigit (c : Char) : Bool := decide ('0' ≤ c) && decide (c ≤ '9')

def digitVal (c : Char) : Nat := c.toNat - 48

/-- Consume a maximal prefix of decimal digits. -/
def takeDigits : List Char → List Nat × List Char
  | [] => ([], [])
  | c :: cs =>
      if isDigit c then
        let p := takeDigits cs
        (digitVal c :: p.1, p.2)
      else ([], c :: cs)

def digitsToNat (ds : List Nat) : Nat := ds.foldl (fun acc d => 10 * acc + d) 0

theorem digitChar_isDigit {d : Nat} (h : d < 10) : isDigit (Nat.digitChar d) = true := by
  have : ∀ d' : Nat, d' < 10 → isDigit (Nat.digitChar d') = true := by decide
  exact this d h

theorem digitVal_digitChar {d : Nat} (h : d < 10) : digitVal (Nat.digitChar d) = d := by
  have : ∀ d' : Nat, d' < 10 → digitVal (Nat.digitChar d') = d' := by decide
  exact this d h

theorem natDigits_all_digit (n : Nat) : ∀ c ∈ natDigits n, isDigit c = true := by
  induction n using natDigits.induct with
  | case1 n h =>
      intro c hc
      rw [natDigits, if_pos h] at hc
      simp only [List.mem_singleton] at hc
      subst hc
      exact digitChar_isDigit h
  | case2 n h ih =>
      intro c hc
      rw [natDigits, if_neg h] at hc
      rcases List.mem_append.mp hc with h' | h'
      · exact ih c h'
      · simp only [List.mem_singleton] at h'
        subst h'
        exact digitChar_isDigit (Nat.mod_lt _ (by omega))

theorem natDigits_ne_nil (n : Nat) : natDigits n ≠ [] := by
  rw [natDigits]
  by_cases h : n < 10
  · rw [if_pos h]; simp
  · rw [if_neg h]; simp

theorem takeDigits_append (ds : List Char) (rest : List Char)
    (hds : ∀ c ∈ ds, isDigit c = true)
    (hrest : ∀ c, rest.head? = some c → isDigit c = false) :
    takeDigits (ds ++ rest) = (ds.map digitVal, rest) := by
  induction ds with
  | nil =>
      cases rest with
      | nil =>
          simp only [List.nil_append]
          rw [takeDigits]
          rfl
      | cons c cs =>
          simp only [List.nil_append]
          rw [takeDigits, if_neg (by simp [hrest c rfl])]
          rfl
  | cons d ds ih =>
      simp only [List.cons_append]
      rw [takeDigits, if_pos (hds d (List.mem_cons_self d ds))]
      rw [ih (fun c hc => hds c (List.mem_cons_of_mem d hc))]
      rfl

theorem digitsToNat_append_digit (xs : List Nat) (d : Nat) :
    digitsToNat (xs ++ [d]) = 10 * digitsToNat xs + d := by
  rw [digitsToNat, digitsToNat, List.foldl_append]
  rfl

theorem digitsToNat_natDigits (n : Nat) :
    digitsToNat ((natDigits n).map digitVal) = n := by
  induction n using natDigits.induct with
  | case1 n h =>
      rw [natDigits, if_pos h]
      simp only [List.map_cons, List.map_nil]
      rw [digitsToNat, List.foldl_cons]
      simp [digitVal_digitChar h, digitsToNat]
  | case2 n h ih =>
      rw [natDigits, if_neg h]
      rw [List.map_append]
      simp only [List.map_cons, List.map_nil]
      rw [digitsToNat_append_digit, ih, digitVal_digitChar (Nat.mod_lt _ (by omega))]
      omega

/-- Leading zeros do not change the decoded value. -/
theorem digitsToNat_replicate_zero (k : Nat) (xs : List Nat) :
    digitsToNat (List.replicate k 0 ++ xs) = digitsToNat xs := by
  induction k with
  | zero => rfl
  | succ k ih =>
      rw [List.replicate_succ, List.cons_append]
      rw [digitsToNat, List.foldl_cons]
      simpa [digitsToNat] using ih

end PrintedBooks

namespace PrintedBooks

/-- The characters of a Python `int` in `repr`/`json.dump` form. -/
def intChars (n : Int) : List Char :=
  if n < 0 then '-' :: natDigits n.natAbs else natDigits n.natAbs

/-- The characters of the decimal float `m / 10^e` with exactly `e` digits
after the point (e.g. `(1050, 2) ↦ "10.50"`, `(5, 3) ↦ "0.005"`). -/
def floatChars (m : Int) (e : Nat) : List Char :=
  let ds := natDigits m.natAbs
  let ds' := List.replicate (e + 1 - ds.length) '0' ++ ds
  let ip := ds'.take (ds'.length - e)
  let fr := ds'.drop (ds'.length - e)
  (if m < 0 then ['-'] else []) ++ ip ++ '.' :: fr

/-- The digits of a JSON number after the optional minus sign: an integer
digit run and an optional fractional part introduced by a dot. -/
def parseNumberCore (neg : Bool) (cs : List Char) : Option (Json × List Char) :=
  match takeDigits cs with
  | ([], _) => none
  | (d :: ds, rest) =>
      match rest with
      | '.' :: rest₂ =>
          match takeDigits rest₂ with
          | ([], _) => none
          | (f :: fs, rest₃) =>
              some (.float
                (if neg then -(digitsToNat ((d :: ds) ++ (f :: fs)) : Int)
                 else (digitsToNat ((d :: ds) ++ (f :: fs)) : Int))
                (f :: fs).length, rest₃)
      | _ =>
          some (.int
            (if neg then -(digitsToNat (d :: ds) : Int)
             else (digitsToNat (d :: ds) : Int)), rest)

/-- Parse a JSON number (without exponent notation, which neither the
serializer nor the catalog file uses). -/
def parseNumber (cs : List Char) : Option (Json × List Char) :=
  match cs with
  | '-' :: t => parseNumberCore true t
  | _ => parseNumberCore false cs

/-- What may legitimately follow a serialized value: end of input, the `,`
separating it from the next element, or the newline preceding the closing
bracket of its container.  (Excludes digits and `.`, so number parsing stops
exactly at the value's boundary.) -/
def restOk : List Char → Prop
  | [] => True
  | c :: _ => c = ',' ∨ c = '\n'

theorem restOk_head_not_digit {rest : List Char} (h : restOk rest) :
    ∀ c, rest.head? = some c → isDigit c = false := by
  intro c hc
  cases rest with
  | nil => cases hc
  | cons r rs =>
      cases hc
      rcases h with h | h <;> (subst h; decide)

theorem natDigits_map_ne_nil (n : Nat) : (natDigits n).map digitVal ≠ [] := by
  intro h
  exact natDigits_ne_nil n (List.map_eq_nil_iff.mp h)

theorem digit_head_shape {rest : List Char} (h : restOk rest) :
    rest = [] ∨ ∃ c t, rest = c :: t ∧ c ≠ '.' ∧ isDigit c = false := by
  cases rest with
  | nil => exact Or.inl rfl
  | cons c t =>
      refine Or.inr ⟨c, t, rfl, ?_, ?_⟩
      · rcases h with h | h <;> (subst h; decide)
      · rcases h with h | h <;> (subst h; decide)

end PrintedBooks

namespace PrintedBooks

theorem parseNumberCore_int (neg : Bool) (ds rest : List Char)
    (hne : ds ≠ []) (hds : ∀ c ∈ ds, isDigit c = true) (h : restOk rest) :
    parseNumberCore neg (ds ++ rest) =
      some (.int (if neg then -(digitsToNat (ds.map digitVal) : Int)
        else (digitsToNat (ds.map digitVal) : Int)), rest) := by
  rw [parseNumberCore]
  rw [takeDigits_append ds rest hds (restOk_head_not_digit h)]
  cases hmap : ds.map digitVal with
  | nil => exact absurd (List.map_eq_nil_iff.mp hmap) hne
  | cons d0 ds0 =>
      dsimp only
      rcases digit_head_shape h with hr | ⟨c, t, hr, hdot, -⟩
      · subst hr
        rw [← hmap]
      · subst hr
        split
        · rename_i heq
          cases heq
          exact absurd rfl hdot
        · rw [← hmap]

theorem parseNumberCore_float (neg : Bool) (ip fr rest : List Char)
    (hipne : ip ≠ []) (hip : ∀ c ∈ ip, isDigit c = true)
    (hfrne : fr ≠ []) (hfr : ∀ c ∈ fr, isDigit c = true) (h : restOk rest) :
    parseNumberCore neg (ip ++ '.' :: (fr ++ rest)) =
      some (.float (if neg then -(digitsToNat ((ip ++ fr).map digitVal) : Int)
        else (digitsToNat ((ip ++ fr).map digitVal) : Int)) fr.length, rest) := by
  rw [parseNumberCore]
  rw [takeDigits_append ip ('.' :: (fr ++ rest)) hip (by intro c hc; cases hc; decide)]
  cases hmap : ip.map digitVal with
  | nil => exact absurd (List.map_eq_nil_iff.mp hmap) hipne
  | cons d0 ds0 =>
      dsimp only
      split
      · rename_i rest₂ heq
        cases heq
        rw [takeDigits_append fr rest hfr (restOk_head_not_digit h)]
        cases hmap2 : fr.map digitVal with
        | nil => exact absurd (List.map_eq_nil_iff.mp hmap2) hfrne
        | cons f0 fs0 =>
            dsimp only
            rw [← hmap, ← hmap2, ← List.map_append, List.length_map]
      · rename_i hno
        exact absurd rfl (fun hc => by cases hno (fr ++ rest) hc)

theorem parseNumber_intChars (n : Int) (rest : List Char) (h : restOk rest) :
    parseNumber (intChars n ++ rest) = some (.int n, rest) := by
  by_cases hn : n < 0
  · rw [intChars, if_pos hn, List.cons_append, parseNumber]
    rw [parseNumberCore_int true _ _ (natDigits_ne_nil _) (natDigits_all_digit _) h]
    rw [digitsToNat_natDigits]
    rw [if_pos rfl]
    rw [show -(n.natAbs : Int) = n from by omega]
  · rw [intChars, if_neg hn]
    obtain ⟨d0, ds0, hds⟩ := List.exists_cons_of_ne_nil (natDigits_ne_nil n.natAbs)
    have hd0 : isDigit d0 = true := by
      have := natDigits_all_digit n.natAbs d0 (by rw [hds]; exact List.mem_cons_self _ _)
      exact this
    rw [hds, List.cons_append, parseNumber]
    · rw [← List.cons_append, ← hds]
      rw [parseNumberCore_int false _ _ (natDigits_ne_nil _) (natDigits_all_digit _) h]
      rw [digitsToNat_natDigits]
      rw [if_neg (by decide)]
      rw [show (n.natAbs : Int) = n from by omega]
    · intro t ht
      cases ht
      exact absurd hd0 (by decide)

theorem map_digitVal_replicate_zero (k : Nat) :
    (List.replicate k '0').map digitVal = List.replicate k 0 := by
  rw [List.map_replicate]
  rfl

theorem parseNumber_floatChars (m : Int) (e : Nat) (he : 1 ≤ e)
    (rest : List Char) (h : restOk rest) :
    parseNumber (floatChars m e ++ rest) = some (.float m e, rest) := by
  rw [floatChars]
  have hlen' : (List.replicate (e + 1 - (natDigits m.natAbs).length) '0'
      ++ natDigits m.natAbs).length ≥ e + 1 := by
    rw [List.length_append, List.length_replicate]
    have := natDigits_ne_nil m.natAbs
    have : 1 ≤ (natDigits m.natAbs).length := by
      cases hx : natDigits m.natAbs with
      | nil => exact absurd hx (natDigits_ne_nil _)
      | cons y ys => simp
    omega
  set ds' := List.replicate (e + 1 - (natDigits m.natAbs).length) '0'
      ++ natDigits m.natAbs with hds'
  have hdig' : ∀ c ∈ ds', isDigit c = true := by
    intro c hc
    rcases List.mem_append.mp hc with hc | hc
    · rw [List.eq_of_mem_replicate hc]
      decide
    · exact natDigits_all_digit _ c hc
  have hip : ∀ c ∈ ds'.take (ds'.length - e), isDigit c = true :=
    fun c hc => hdig' c (List.mem_of_mem_take hc)
  have hfr : ∀ c ∈ ds'.drop (ds'.length - e), isDigit c = true :=
    fun c hc => hdig' c (List.mem_of_mem_drop hc)
  have hiplen : (ds'.take (ds'.length - e)).length = ds'.length - e := by
    rw [List.length_take]
    omega
  have hfrlen : (ds'.drop (ds'.length - e)).length = e := by
    rw [List.length_drop]
    omega
  have hipne : ds'.take (ds'.length - e) ≠ [] := by
    intro hc
    rw [hc] at hiplen
    simp at hiplen
    omega
  have hfrne : ds'.drop (ds'.length - e) ≠ [] := by
    intro hc
    rw [hc] at hfrlen
    simp at hfrlen
    omega
  have hval : digitsToNat ((ds'.take (ds'.length - e) ++ ds'.drop (ds'.length - e)).map digitVal)
      = m.natAbs := by
    rw [List.take_append_drop]
    rw [hds', List.map_append, map_digitVal_replicate_zero, digitsToNat_replicate_zero,
      digitsToNat_natDigits]
  by_cases hm : m < 0
  · rw [if_pos hm]
    simp only [List.cons_append, List.nil_append, List.append_assoc]
    rw [parseNumber]
    rw [parseNumberCore_float true _ _ _ hipne hip hfrne hfr h]
    rw [hval, if_pos rfl, hfrlen]
    rw [show -(m.natAbs : Int) = m from by omega]
  · rw [if_neg hm]
    simp only [List.nil_append, List.append_assoc]
    obtain ⟨d0, ds0, hds0⟩ := List.exists_cons_of_ne_nil hipne
    have hd0 : isDigit d0 = true :=
      hip d0 (by rw [hds0]; exact List.mem_cons_self _ _)
    rw [hds0, List.cons_append, parseNumber]
    · rw [← List.cons_append, ← hds0]
      rw [show ('.' :: ds'.drop (ds'.length - e)) ++ rest
          = '.' :: (ds'.drop (ds'.length - e) ++ rest) from List.cons_append ..]
      rw [parseNumberCore_float false _ _ _ hipne hip hfrne hfr h]
      rw [hval, if_neg (by decide), hfrlen]
      rw [show (m.natAbs : Int) = m from by omega]
    · intro t ht
      cases ht
      exact absurd hd0 (by decide)

end PrintedBooks

namespace PrintedBooks

/-- Lowercase hex digit (`Nat.digitChar` maps 10..15 to 'a'..'f', as Python's
`\uXXXX` escapes are lowercase). -/
def hexVal (c : Char) : Option Nat :=
  if isDigit c then some (digitVal c)
  else if 'a' ≤ c ∧ c ≤ 'f' then some (c.toNat - 87)
  else if 'A' ≤ c ∧ c ≤ 'F' then some (c.toNat - 55)
  else none

theorem hexVal_digitChar {n : Nat} (h : n < 16) : hexVal (Nat.digitChar n) = some n := by
  have : ∀ m : Nat, m < 16 → hexVal (Nat.digitChar m) = some m := by decide
  exact this n h

/-- The escaping `json.dump` applies to one character of a string literal
when `ensure_ascii=False`: `"` and `\` are escaped, the common control
characters get short escapes, the remaining control characters (code point
< 0x20) become `\u00XX` (lowercase hex), and every other character — ASCII
or not — is written literally. -/
def escapeChar (c : Char) : List Char :=
  if c = '"' then ['\\', '"']
  else if c = '\\' then ['\\', '\\']
  else if c = '\n' then ['\\', 'n']
  else if c = '\t' then ['\\', 't']
  else if c = '\r' then ['\\', 'r']
  else if c = '\x08' then ['\\', 'b']
  else if c = '\x0c' then ['\\', 'f']
  else if c.toNat < 32 then
    ['\\', 'u', '0', '0', Nat.digitChar (c.toNat / 16), Nat.digitChar (c.toNat % 16)]
  else [c]

def escapeList : List Char → List Char
  | [] => []
  | c :: cs => escapeChar c ++ escapeList cs

/-- Decode the four hex digits of a `\uXXXX` escape. -/
def decodeU : List Char → Option (Char × List Char)
  | h1 :: h2 :: h3 :: h4 :: cs₃ =>
      match hexVal h1, hexVal h2, hexVal h3, hexVal h4 with
      | some a, some b, some c2, some d =>
          some (Char.ofNat (4096 * a + 256 * b + 16 * c2 + d), cs₃)
      | _, _, _, _ => none
  | _ => none

/-- Decode one escape sequence (the backslash already consumed): returns the
decoded character and the remaining input. -/
def decodeEscape : List Char → Option (Char × List Char)
  | [] => none
  | e :: cs₂ =>
      if e = '"' then some ('"', cs₂)
      else if e = '\\' then some ('\\', cs₂)
      else if e = '/' then some ('/', cs₂)
      else if e = 'n' then some ('\n', cs₂)
      else if e = 't' then some ('\t', cs₂)
      else if e = 'r' then some ('\r', cs₂)
      else if e = 'b' then some ('\x08', cs₂)
      else if e = 'f' then some ('\x0c', cs₂)
      else if e = 'u' then decodeU cs₂
      else none

theorem decodeU_length {cs₂ : List Char} {p : Char × List Char}
    (h : decodeU cs₂ = some p) : p.2.length < cs₂.length := by
  match cs₂ with
  | [] => rw [show decodeU [] = none from rfl] at h; cases h
  | [a] => rw [show decodeU [a] = none from rfl] at h; cases h
  | [a, b] => rw [show decodeU [a, b] = none from rfl] at h; cases h
  | [a, b, c] => rw [show decodeU [a, b, c] = none from rfl] at h; cases h
  | h1 :: h2 :: h3 :: h4 :: cs₃ =>
      rw [decodeU] at h
      split at h
      · cases h
        simp
        omega
      · cases h

theorem decodeEscape_length {cs : List Char} {p : Char × List Char}
    (h : decodeEscape cs = some p) : p.2.length < cs.length := by
  match cs with
  | [] => cases h
  | e :: cs₂ =>
      rw [decodeEscape] at h
      split at h
      · cases h; simp
      · split at h
        · cases h; simp
        · split at h
          · cases h; simp
          · split at h
            · cases h; simp
            · split at h
              · cases h; simp
              · split at h
                · cases h; simp
                · split at h
                  · cases h; simp
                  · split at h
                    · cases h; simp
                    · split at h
                      · have := decodeU_length h
                        simp
                        omega
                      · cases h

/-- Parse the body of a JSON string literal (the opening quote already
consumed): collect characters up to the closing quote, decoding escapes. -/
def parseStringBody : List Char → Option (List Char × List Char)
  | [] => none
  | c :: cs =>
      if c = '"' then some ([], cs)
      else if c = '\\' then
        match h : decodeEscape cs with
        | none => none
        | some p => (parseStringBody p.2).map (fun q => (p.1 :: q.1, q.2))
      else (parseStringBody cs).map (fun p => (c :: p.1, p.2))
termination_by cs => cs.length
decreasing_by
  · exact Nat.lt_succ_of_lt (decodeEscape_length h)
  · simp

/-- Every character is either written literally by `escapeChar` (and is then
neither a quote nor a backslash), or written as a backslash escape that
`decodeEscape` decodes back to it. -/
theorem escapeChar_spec (c : Char) :
    (escapeChar c = [c] ∧ c ≠ '"' ∧ c ≠ '\\') ∨
    (∃ t, escapeChar c = '\\' :: t ∧
      ∀ X : List Char, decodeEscape (t ++ X) = some (c, X)) := by
  rw [escapeChar]
  by_cases h1 : c = '"'
  · subst h1
    rw [if_pos rfl]
    exact Or.inr ⟨['"'], rfl, fun X => by rw [List.cons_append, List.nil_append,
      decodeEscape, if_pos rfl]⟩
  rw [if_neg h1]
  by_cases h2 : c = '\\'
  · subst h2
    rw [if_pos rfl]
    exact Or.inr ⟨['\\'], rfl, fun X => by rw [List.cons_append, List.nil_append,
      decodeEscape, if_neg (by decide), if_pos rfl]⟩
  rw [if_neg h2]
  by_cases h3 : c = '\n'
  · subst h3
    rw [if_pos rfl]
    exact Or.inr ⟨['n'], rfl, fun X => by rw [List.cons_append, List.nil_append,
      decodeEscape, if_neg (by decide), if_neg (by decide), if_neg (by decide),
      if_pos rfl]⟩
  rw [if_neg h3]
  by_cases h4 : c = '\t'
  · subst h4
    rw [if_pos rfl]
    exact Or.inr ⟨['t'], rfl, fun X => by rw [List.cons_append, List.nil_append,
      decodeEscape, if_neg (by decide), if_neg (by decide), if_neg (by decide),
      if_neg (by decide), if_pos rfl]⟩
  rw [if_neg h4]
  by_cases h5 : c = '\r'
  · subst h5
    rw [if_pos rfl]
    exact Or.inr ⟨['r'], rfl, fun X => by rw [List.cons_append, List.nil_append,
      decodeEscape, if_neg (by decide), if_neg (by decide), if_neg (by decide),
      if_neg (by decide), if_neg (by decide), if_pos rfl]⟩
  rw [if_neg h5]
  by_cases h6 : c = '\x08'
  · subst h6
    rw [if_pos rfl]
    exact Or.inr ⟨['b'], rfl, fun X => by rw [List.cons_append, List.nil_append,
      decodeEscape, if_neg (by decide), if_neg (by decide), if_neg (by decide),
      if_neg (by decide), if_neg (by decide), if_neg (by decide), if_pos rfl]⟩
  rw [if_neg h6]
  by_cases h7 : c = '\x0c'
  · subst h7
    rw [if_pos rfl]
    exact Or.inr ⟨['f'], rfl, fun X => by rw [List.cons_append, List.nil_append,
      decodeEscape, if_neg (by decide), if_neg (by decide), if_neg (by decide),
      if_neg (by decide), if_neg (by decide), if_neg (by decide), if_neg (by decide),
      if_pos rfl]⟩
  rw [if_neg h7]
  by_cases h8 : c.toNat < 32
  · rw [if_pos h8]
    refine Or.inr ⟨['u', '0', '0', Nat.digitChar (c.toNat / 16),
      Nat.digitChar (c.toNat % 16)], rfl, fun X => ?_⟩
    rw [show (['u', '0', '0', Nat.digitChar (c.toNat / 16),
        Nat.digitChar (c.toNat % 16)] : List Char) ++ X
        = 'u' :: '0' :: '0' :: Nat.digitChar (c.toNat / 16) ::
          Nat.digitChar (c.toNat % 16) :: X from rfl]
    rw [decodeEscape]
    rw [if_neg (by decide), if_neg (by decide), if_neg (by decide),
      if_neg (by decide), if_neg (by decide), if_neg (by decide),
      if_neg (by decide), if_neg (by decide), if_pos rfl]
    rw [decodeU]
    rw [show hexVal '0' = some 0 from by decide]
    rw [hexVal_digitChar (by omega), hexVal_digitChar (by omega)]
    dsimp only
    rw [show 4096 * 0 + 256 * 0 + 16 * (c.toNat / 16) + c.toNat % 16
        = c.toNat from by omega]
    rw [Char.ofNat_toNat]
  · rw [if_neg h8]
    exact Or.inl ⟨rfl, h1, h2⟩

theorem parseStringBody_escape (s rest : List Char) :
    parseStringBody (escapeList s ++ '"' :: rest) = some (s, rest) := by
  induction s with
  | nil =>
      rw [escapeList, List.nil_append, parseStringBody, if_pos rfl]
  | cons c cs ih =>
      rw [escapeList, List.append_assoc]
      rcases escapeChar_spec c with ⟨hlit, hq, hbs⟩ | ⟨t, hesc, hdec⟩
      · rw [hlit, List.cons_append, List.nil_append]
        rw [parseStringBody, if_neg hq, if_neg hbs, ih]
        rfl
      · rw [hesc, List.cons_append]
        rw [parseStringBody, if_neg (by decide), if_pos rfl]
        split
        · rename_i heq
          rw [hdec] at heq
          cases heq
        · rename_i p heq
          rw [hdec] at heq
          cases heq
          rw [ih]
          rfl

end PrintedBooks

namespace PrintedBooks

/-- `4 * ind` spaces: the indentation `json.dump(..., indent=4)` writes. -/
def padChars (ind : Nat) : List Char := List.replicate (4 * ind) ' '

mutual
/-- The characters `json.dump(v, f, indent=4, ensure_ascii=False)` writes for
a value nested at depth `ind`: keywords, numbers and strings inline; a
non-empty array/object opens its bracket, writes one element per line
indented one level deeper, and closes the bracket on its own line at the
current level; empty containers are written inline.  Non-ASCII characters
are emitted literally (`ensure_ascii=False`). -/
def dumpValue : Nat → Json → List Char
  | _, .null => ['n', 'u', 'l', 'l']
  | _, .bool true => ['t', 'r', 'u', 'e']
  | _, .bool false => ['f', 'a', 'l', 's', 'e']
  | _, .int n => intChars n
  | _, .float m e => floatChars m e
  | _, .str s => '"' :: (escapeList s.data ++ ['"'])
  | _, .arr [] => ['[', ']']
  | ind, .arr (v :: vs) =>
      '[' :: '\n' :: (dumpItems (ind + 1) v vs ++ '\n' :: (padChars ind ++ [']']))
  | _, .obj [] => ['\x7b', '\x7d']
  | ind, .obj (kv :: kvs) =>
      '\x7b' :: '\n' :: (dumpMembers (ind + 1) kv kvs ++ '\n' :: (padChars ind ++ ['\x7d']))
termination_by ind v => sizeOf v
decreasing_by all_goals (simp <;> omega)

/-- The lines of a non-empty array body, separated by `",\n"`. -/
def dumpItems : Nat → Json → List Json → List Char
  | ind, v, [] => padChars ind ++ dumpValue ind v
  | ind, v, w :: vs =>
      padChars ind ++ dumpValue ind v ++ ',' :: '\n' :: dumpItems ind w vs
termination_by ind v vs => 1 + sizeOf v + sizeOf vs
decreasing_by all_goals (simp <;> omega)

/-- The lines of a non-empty object body: `"key": value`, separated by
`",\n"`. -/
def dumpMembers : Nat → String × Json → List (String × Json) → List Char
  | ind, (k, v), [] =>
      padChars ind ++ '"' :: (escapeList k.data
        ++ '"' :: ':' :: ' ' :: dumpValue ind v)
  | ind, (k, v), kv' :: kvs =>
      padChars ind ++ '"' :: (escapeList k.data
        ++ '"' :: ':' :: ' ' :: dumpValue ind v)
        ++ ',' :: '\n' :: dumpMembers ind kv' kvs
termination_by ind kv kvs => 1 + sizeOf kv + sizeOf kvs
decreasing_by all_goals (simp <;> omega)
end

/-- The whitespace `json.loads` skips between tokens. -/
def isWsChar (c : Char) : Bool :=
  c = ' ' || c = '\n' || c = '\t' || c = '\r'

def skipWs : List Char → List Char
  | [] => []
  | c :: cs => if isWsChar c then skipWs cs else c :: cs

mutual
/-- A recursive-descent JSON reader (the model of `json.loads` restricted to
what the serializer emits and the catalog file uses: no exponent notation in
numbers).  `fuel` bounds the recursion depth; every recursive call spends
one unit. -/
def parseValue : Nat → List Char → Option (Json × List Char)
  | 0, _ => none
  | f + 1, cs =>
      match skipWs cs with
      | [] => none
      | c :: cs' =>
          if c = '\x7b' then
            match skipWs cs' with
            | [] => none
            | d :: rest =>
                if d = '\x7d' then some (.obj [], rest)
                else
                  match parseMembers f (d :: rest) with
                  | some (ms, rest₂) => some (.obj ms, rest₂)
                  | none => none
          else if c = '[' then
            match skipWs cs' with
            | [] => none
            | d :: rest =>
                if d = ']' then some (.arr [], rest)
                else
                  match parseItems f (d :: rest) with
                  | some (vs, rest₂) => some (.arr vs, rest₂)
                  | none => none
          else if c = '"' then
            match parseStringBody cs' with
            | some (s, rest) => some (.str (String.mk s), rest)
            | none => none
          else if c = 't' then
            match cs' with
            | 'r' :: 'u' :: 'e' :: rest => some (.bool true, rest)
            | _ => none
          else if c = 'f' then
            match cs' with
            | 'a' :: 'l' :: 's' :: 'e' :: rest => some (.bool false, rest)
            | _ => none
          else if c = 'n' then
            match cs' with
            | 'u' :: 'l' :: 'l' :: rest => some (.null, rest)
            | _ => none
          else parseNumber (c :: cs')

/-- One or more comma-separated values followed by `]`. -/
def parseItems : Nat → List Char → Option (List Json × List Char)
  | 0, _ => none
  | f + 1, cs =>
      match parseValue f cs with
      | none => none
      | some (v, rest) =>
          match skipWs rest with
          | [] => none
          | d :: rest₂ =>
              if d = ',' then
                match parseItems f rest₂ with
                | some (vs, rest₃) => some (v :: vs, rest₃)
                | none => none
              else if d = ']' then some ([v], rest₂)
              else none

/-- One or more comma-separated `"key": value` pairs followed by `}`. -/
def parseMembers : Nat → List Char → Option (List (String × Json) × List Char)
  | 0, _ => none
  | f + 1, cs =>
      match skipWs cs with
      | [] => none
      | q :: cs₁ =>
          if q = '"' then
            match parseStringBody cs₁ with
            | none => none
            | some (k, rest) =>
                match skipWs rest with
                | [] => none
                | colon :: rest₂ =>
                    if colon = ':' then
                      match parseValue f rest₂ with
                      | none => none
                      | some (v, rest₃) =>
                          match skipWs rest₃ with
                          | [] => none
                          | d :: rest₄ =>
                              if d = ',' then
                                match parseMembers f rest₄ with
                                | some (ms, rest₅) =>
                                    some ((String.mk k, v) :: ms, rest₅)
                                | none => none
                              else if d = '\x7d' then
                                some ([(String.mk k, v)], rest₄)
                              else none
                    else none
          else none
end

/-- `json.dump(v, f, indent=4, ensure_ascii=False)` as a string: the text
`save_books` writes for the in-memory value `v`. -/
def json_dumps (v : Json) : String := String.mk (dumpValue 0 v)

/-- `json.load`: parse a whole document (the fuel `length + 1` is proven
sufficient for every serialized value below). -/
def json_loads (s : String) : Option Json :=
  match parseValue (s.data.length + 1) s.data with
  | some (v, rest) => if skipWs rest = [] then some v else none
  | none => none

end PrintedBooks

namespace PrintedBooks

mutual
/-- Recursion fuel needed by `parseValue` to read back a serialized value. -/
def jfuel : Json → Nat
  | .null => 1
  | .bool _ => 1
  | .int _ => 1
  | .float _ _ => 1
  | .str _ => 1
  | .arr [] => 1
  | .arr (v :: vs) => 1 + jfuelItems v vs
  | .obj [] => 1
  | .obj (kv :: kvs) => 1 + jfuelMembers kv kvs
termination_by v => sizeOf v
decreasing_by all_goals (simp <;> omega)

def jfuelItems : Json → List Json → Nat
  | v, [] => 1 + jfuel v
  | v, w :: vs => 1 + jfuel v + jfuelItems w vs
termination_by v vs => 1 + sizeOf v + sizeOf vs
decreasing_by all_goals (simp <;> omega)

def jfuelMembers : String × Json → List (String × Json) → Nat
  | (_, v), [] => 1 + jfuel v
  | (_, v), kv' :: kvs => 1 + jfuel v + jfuelMembers kv' kvs
termination_by kv kvs => 1 + sizeOf kv + sizeOf kvs
decreasing_by all_goals (simp <;> omega)
end

mutual
/-- Every float in the value carries at least one digit after the point —
true of everything `parseValue` produces (a fraction needs a digit), and
exactly what the serializer needs to write a number the parser reads back
unchanged. -/
def floatsOKb : Json → Bool
  | .null => true
  | .bool _ => true
  | .int _ => true
  | .float _ e => decide (1 ≤ e)
  | .str _ => true
  | .arr l => floatsOKbItems l
  | .obj m => floatsOKbMembers m
termination_by v => sizeOf v
decreasing_by all_goals (simp <;> omega)

def floatsOKbItems : List Json → Bool
  | [] => true
  | v :: vs => floatsOKb v && floatsOKbItems vs
termination_by l => sizeOf l
decreasing_by all_goals (simp <;> omega)

def floatsOKbMembers : List (String × Json) → Bool
  | [] => true
  | (_, v) :: kvs => floatsOKb v && floatsOKbMembers kvs
termination_by m => sizeOf m
decreasing_by all_goals (simp <;> omega)
end

theorem skipWs_nil : skipWs [] = [] := by rw [skipWs]

theorem skipWs_cons_ws {c : Char} (h : isWsChar c = true) (cs : List Char) :
    skipWs (c :: cs) = skipWs cs := by
  rw [skipWs, if_pos h]

theorem skipWs_cons_not_ws {c : Char} (h : isWsChar c = false) (cs : List Char) :
    skipWs (c :: cs) = c :: cs := by
  rw [skipWs, if_neg (by rw [h]; exact Bool.false_ne_true)]

theorem skipWs_append_ws {ws : List Char} (h : ∀ c ∈ ws, isWsChar c = true)
    (cs : List Char) : skipWs (ws ++ cs) = skipWs cs := by
  induction ws with
  | nil => rw [List.nil_append]
  | cons w ws ih =>
      rw [List.cons_append, skipWs_cons_ws (h w (List.mem_cons_self w ws))]
      exact ih (fun c hc => h c (List.mem_cons_of_mem w hc))

theorem skipWs_pad (ind : Nat) (cs : List Char) :
    skipWs (padChars ind ++ cs) = skipWs cs :=
  skipWs_append_ws (fun c hc => by rw [List.eq_of_mem_replicate hc]; rfl) cs

theorem parseValue_eq_of_skipWs {cs cs' : List Char}
    (h : skipWs cs = skipWs cs') (fuel : Nat) :
    parseValue fuel cs = parseValue fuel cs' := by
  cases fuel with
  | zero => rfl
  | succ f => rw [parseValue, parseValue, h]

theorem parseItems_eq_of_skipWs {cs cs' : List Char}
    (h : skipWs cs = skipWs cs') (fuel : Nat) :
    parseItems fuel cs = parseItems fuel cs' := by
  cases fuel with
  | zero => rfl
  | succ f => rw [parseItems, parseItems, parseValue_eq_of_skipWs h]

theorem parseMembers_eq_of_skipWs {cs cs' : List Char}
    (h : skipWs cs = skipWs cs') (fuel : Nat) :
    parseMembers fuel cs = parseMembers fuel cs' := by
  cases fuel with
  | zero => rfl
  | succ f => rw [parseMembers, parseMembers, h]

theorem skipWs_skipWs (cs : List Char) : skipWs (skipWs cs) = skipWs cs := by
  induction cs with
  | nil => rw [skipWs_nil, skipWs_nil]
  | cons c cs ih =>
      by_cases h : isWsChar c = true
      · rw [skipWs_cons_ws h, ih]
      · rw [skipWs_cons_not_ws (Bool.not_eq_true _ ▸ h)]
        rw [skipWs_cons_not_ws (Bool.not_eq_true _ ▸ h)]

/-- A decimal digit character is not whitespace and not any of the
punctuation or keyword-opening characters the parser dispatches on. -/
theorem isDigit_props {c : Char} (h : isDigit c = true) :
    isWsChar c = false ∧ c ≠ ']' ∧ c ≠ '\x7d' ∧ c ≠ ',' ∧ c ≠ '-' ∧
    c ≠ '.' ∧ c ≠ '"' ∧ c ≠ '\x7b' ∧ c ≠ '[' ∧ c ≠ 't' ∧ c ≠ 'f' ∧ c ≠ 'n' := by
  rw [isDigit, Bool.and_eq_true, decide_eq_true_eq, decide_eq_true_eq] at h
  obtain ⟨hl, hr⟩ := h
  rw [Char.le_def] at hl hr
  refine ⟨?_, ?_, ?_, ?_, ?_, ?_, ?_, ?_, ?_, ?_, ?_, ?_⟩ <;>
    first
      | (intro hc; subst hc; revert hl hr; decide)
      | (rw [isWsChar]
         simp only [Bool.or_eq_false_iff, decide_eq_false_iff_not]
         refine ⟨⟨⟨?_, ?_⟩, ?_⟩, ?_⟩ <;> (intro hc; subst hc; revert hl hr; decide))

/-- The first character a serialized value puts on the wire: never
whitespace, never a closing bracket, never a comma. -/
theorem dumpValue_head (ind : Nat) (v : Json) :
    ∃ c t, dumpValue ind v = c :: t ∧ isWsChar c = false ∧
      c ≠ ']' ∧ c ≠ '\x7d' ∧ c ≠ ',' := by
  cases v with
  | null => exact ⟨'n', _, by rw [dumpValue], by decide, by decide, by decide, by decide⟩
  | bool b =>
      cases b with
      | true => exact ⟨'t', _, by rw [dumpValue], by decide, by decide, by decide, by decide⟩
      | false => exact ⟨'f', _, by rw [dumpValue], by decide, by decide, by decide, by decide⟩
  | int n =>
      by_cases hn : n < 0
      · exact ⟨'-', _, by rw [dumpValue, intChars, if_pos hn], by decide, by decide,
          by decide, by decide⟩
      · obtain ⟨d0, ds0, hds⟩ := List.exists_cons_of_ne_nil (natDigits_ne_nil n.natAbs)
        have hd0 : isDigit d0 = true :=
          natDigits_all_digit n.natAbs d0 (by rw [hds]; exact List.mem_cons_self _ _)
        obtain ⟨p1, p2, p3, p4, -⟩ := isDigit_props hd0
        exact ⟨d0, ds0, by rw [dumpValue, intChars, if_neg hn, hds], p1, p2, p3, p4⟩
  | float m e =>
      by_cases hm : m < 0
      · exact ⟨'-', _, by rw [dumpValue, floatChars, if_pos hm, List.cons_append,
          List.nil_append]; rfl, by decide, by decide, by decide, by decide⟩
      · have hdump : dumpValue ind (.float m e) =
            (List.replicate (e + 1 - (natDigits m.natAbs).length) '0'
              ++ natDigits m.natAbs).take
              ((List.replicate (e + 1 - (natDigits m.natAbs).length) '0'
                ++ natDigits m.natAbs).length - e)
            ++ '.' :: (List.replicate (e + 1 - (natDigits m.natAbs).length) '0'
              ++ natDigits m.natAbs).drop
              ((List.replicate (e + 1 - (natDigits m.natAbs).length) '0'
                ++ natDigits m.natAbs).length - e) := by
          rw [dumpValue, floatChars, if_neg hm, List.nil_append]
        set ds' := List.replicate (e + 1 - (natDigits m.natAbs).length) '0'
            ++ natDigits m.natAbs with hds'
        have hlen' : ds'.length ≥ e + 1 := by
          rw [hds', List.length_append, List.length_replicate]
          have h1 : 1 ≤ (natDigits m.natAbs).length := by
            cases hx : natDigits m.natAbs with
            | nil => exact absurd hx (natDigits_ne_nil _)
            | cons y ys => simp
          omega
        have hiplen : (ds'.take (ds'.length - e)).length = ds'.length - e := by
          rw [List.length_take]
          omega
        have hipne : ds'.take (ds'.length - e) ≠ [] := by
          intro hc
          rw [hc] at hiplen
          simp at hiplen
          omega
        obtain ⟨d0, ds0, hds0⟩ := List.exists_cons_of_ne_nil hipne
        have hd0 : isDigit d0 = true := by
          have hmem : d0 ∈ ds' :=
            List.mem_of_mem_take (by rw [hds0]; exact List.mem_cons_self _ _)
          rcases List.mem_append.mp (hds' ▸ hmem) with hc | hc
          · rw [List.eq_of_mem_replicate hc]
            decide
          · exact natDigits_all_digit _ _ hc
        obtain ⟨p1, p2, p3, p4, -⟩ := isDigit_props hd0
        exact ⟨d0, ds0 ++ '.' :: ds'.drop (ds'.length - e),
          by rw [hdump, hds0, List.cons_append], p1, p2, p3, p4⟩
  | str s => exact ⟨'"', _, by rw [dumpValue], by decide, by decide, by decide, by decide⟩
  | arr l =>
      cases l with
      | nil => exact ⟨'[', _, by rw [dumpValue], by decide, by decide, by decide, by decide⟩
      | cons v vs => exact ⟨'[', _, by rw [dumpValue], by decide, by decide, by decide, by decide⟩
  | obj m =>
      cases m with
      | nil => exact ⟨'\x7b', _, by rw [dumpValue], by decide, by decide, by decide, by decide⟩
      | cons kv kvs => exact ⟨'\x7b', _, by rw [dumpValue], by decide, by decide, by decide, by decide⟩

end PrintedBooks

namespace PrintedBooks

theorem jfuel_pos : ∀ v : Json, 1 ≤ jfuel v := by
  intro v
  cases v with
  | null => rw [jfuel]
  | bool b => rw [jfuel]
  | int n => rw [jfuel]
  | float m e => rw [jfuel]
  | str s => rw [jfuel]
  | arr l =>
      cases l with
      | nil => rw [jfuel]
      | cons a as => rw [jfuel]; omega
  | obj m =>
      cases m with
      | nil => rw [jfuel]
      | cons a as => rw [jfuel]; omega

theorem jfuelItems_pos (v : Json) (vs : List Json) : 1 ≤ jfuelItems v vs := by
  cases vs with
  | nil => rw [jfuelItems]; omega
  | cons w ws => rw [jfuelItems]; omega

theorem jfuelMembers_pos (kv : String × Json) (kvs : List (String × Json)) :
    1 ≤ jfuelMembers kv kvs := by
  obtain ⟨k, v⟩ := kv
  cases kvs with
  | nil => rw [jfuelMembers]; omega
  | cons w ws => rw [jfuelMembers]; omega

/-- The first character of a serialized number is a minus sign or a digit;
either way it is not whitespace and not one of the parser's dispatch
characters, so `parseValue` falls through to `parseNumber`. -/
theorem intChars_shape (n : Int) :
    ∃ c t, intChars n = c :: t ∧ isWsChar c = false ∧ c ≠ '\x7b' ∧ c ≠ '[' ∧
      c ≠ '"' ∧ c ≠ 't' ∧ c ≠ 'f' ∧ c ≠ 'n' := by
  by_cases hn : n < 0
  · exact ⟨'-', _, by rw [intChars, if_pos hn], by decide, by decide, by decide,
      by decide, by decide, by decide, by decide⟩
  · obtain ⟨d0, ds0, hds⟩ := List.exists_cons_of_ne_nil (natDigits_ne_nil n.natAbs)
    have hd0 : isDigit d0 = true :=
      natDigits_all_digit n.natAbs d0 (by rw [hds]; exact List.mem_cons_self _ _)
    obtain ⟨p1, -, -, -, -, -, p7, p8, p9, p10, p11, p12⟩ := isDigit_props hd0
    exact ⟨d0, ds0, by rw [intChars, if_neg hn, hds], p1, p8, p9, p7, p10, p11, p12⟩

theorem floatChars_shape (m : Int) (e : Nat) :
    ∃ c t, floatChars m e = c :: t ∧ isWsChar c = false ∧ c ≠ '\x7b' ∧ c ≠ '[' ∧
      c ≠ '"' ∧ c ≠ 't' ∧ c ≠ 'f' ∧ c ≠ 'n' := by
  by_cases hm : m < 0
  · exact ⟨'-', _, by rw [floatChars, if_pos hm, List.cons_append, List.nil_append]; rfl,
      by decide, by decide, by decide, by decide, by decide, by decide, by decide⟩
  · have hdump : floatChars m e =
        (List.replicate (e + 1 - (natDigits m.natAbs).length) '0'
          ++ natDigits m.natAbs).take
          ((List.replicate (e + 1 - (natDigits m.natAbs).length) '0'
            ++ natDigits m.natAbs).length - e)
        ++ '.' :: (List.replicate (e + 1 - (natDigits m.natAbs).length) '0'
          ++ natDigits m.natAbs).drop
          ((List.replicate (e + 1 - (natDigits m.natAbs).length) '0'
            ++ natDigits m.natAbs).length - e) := by
      rw [floatChars, if_neg hm, List.nil_append]
    set ds' := List.replicate (e + 1 - (natDigits m.natAbs).length) '0'
        ++ natDigits m.natAbs with hds'
    have hlen' : ds'.length ≥ e + 1 := by
      rw [hds', List.length_append, List.length_replicate]
      have h1 : 1 ≤ (natDigits m.natAbs).length := by
        cases hx : natDigits m.natAbs with
        | nil => exact absurd hx (natDigits_ne_nil _)
        | cons y ys => simp
      omega
    have hiplen : (ds'.take (ds'.length - e)).length = ds'.length - e := by
      rw [List.length_take]
      omega
    have hipne : ds'.take (ds'.length - e) ≠ [] := by
      intro hc
      rw [hc] at hiplen
      simp at hiplen
      omega
    obtain ⟨d0, ds0, hds0⟩ := List.exists_cons_of_ne_nil hipne
    have hd0 : isDigit d0 = true := by
      have hmem : d0 ∈ ds' :=
        List.mem_of_mem_take (by rw [hds0]; exact List.mem_cons_self _ _)
      rcases List.mem_append.mp (hds' ▸ hmem) with hc | hc
      · rw [List.eq_of_mem_replicate hc]
        decide
      · exact natDigits_all_digit _ _ hc
    obtain ⟨p1, -, -, -, -, -, p7, p8, p9, p10, p11, p12⟩ := isDigit_props hd0
    exact ⟨d0, ds0 ++ '.' :: ds'.drop (ds'.length - e),
      by rw [hdump, hds0, List.cons_append], p1, p8, p9, p7, p10, p11, p12⟩

theorem dumpItems_decompose (ind : Nat) (v : Json) (vs : List Json) :
    ∃ suf, dumpItems ind v vs = padChars ind ++ (dumpValue ind v ++ suf) := by
  cases vs with
  | nil => exact ⟨[], by rw [dumpItems, List.append_nil]⟩
  | cons w ws =>
      exact ⟨',' :: '\n' :: dumpItems ind w ws,
        by rw [dumpItems, List.append_assoc]⟩

theorem dumpMembers_decompose (ind : Nat) (kv : String × Json)
    (kvs : List (String × Json)) :
    ∃ suf, dumpMembers ind kv kvs = padChars ind ++ ('"' :: suf) := by
  obtain ⟨k, v⟩ := kv
  cases kvs with
  | nil => exact ⟨_, by rw [dumpMembers]⟩
  | cons kv' kvs' =>
      refine ⟨(escapeList k.data ++ '"' :: ':' :: ' ' :: dumpValue ind v)
        ++ ',' :: '\n' :: dumpMembers ind kv' kvs', ?_⟩
      rw [dumpMembers]
      rw [List.append_assoc]
      rfl

theorem string_mk_data (s : String) : String.mk s.data = s := rfl

end PrintedBooks

namespace PrintedBooks

/-- Print/parse round trip, by induction on the parser fuel: every value the
serializer writes (at any indentation level, with any legitimate following
text) is read back unchanged by the parser, provided its floats carry at
least one fractional digit (which everything `json.load` produces does). -/
theorem parse_dump : ∀ fuel : Nat,
    (∀ v ind rest, jfuel v ≤ fuel → floatsOKb v = true → restOk rest →
      parseValue fuel (dumpValue ind v ++ rest) = some (v, rest)) ∧
    (∀ v vs ind ind₂ rest, jfuelItems v vs ≤ fuel →
      floatsOKb v = true → floatsOKbItems vs = true → restOk rest →
      parseItems fuel
        (dumpItems ind v vs ++ '\n' :: (padChars ind₂ ++ ']' :: rest))
        = some (v :: vs, rest)) ∧
    (∀ k v kvs ind ind₂ rest, jfuelMembers (k, v) kvs ≤ fuel →
      floatsOKb v = true → floatsOKbMembers kvs = true → restOk rest →
      parseMembers fuel
        (dumpMembers ind (k, v) kvs ++ '\n' :: (padChars ind₂ ++ '\x7d' :: rest))
        = some ((k, v) :: kvs, rest)) := by
  intro fuel
  induction fuel with
  | zero =>
      refine ⟨?_, ?_, ?_⟩
      · intro v ind rest hfu _ _
        exact absurd hfu (by have := jfuel_pos v; omega)
      · intro v vs ind ind₂ rest hfu _ _ _
        exact absurd hfu (by have := jfuelItems_pos v vs; omega)
      · intro k v kvs ind ind₂ rest hfu _ _ _
        exact absurd hfu (by have := jfuelMembers_pos (k, v) kvs; omega)
  | succ f ih =>
      obtain ⟨ihP, ihQ, ihR⟩ := ih
      refine ⟨?_, ?_, ?_⟩
      · -- parseValue on a dumped value
        intro v ind rest hfu hwf hrest
        cases v with
        | null =>
            rw [show dumpValue ind .null ++ rest = 'n' :: 'u' :: 'l' :: 'l' :: rest
              from by rw [dumpValue]; rfl]
            rw [parseValue, skipWs_cons_not_ws (by decide)]
            dsimp only
            rw [if_neg (by decide), if_neg (by decide), if_neg (by decide),
              if_neg (by decide), if_neg (by decide), if_pos rfl]
            rfl
        | bool b =>
            cases b with
            | true =>
                rw [show dumpValue ind (.bool true) ++ rest
                    = 't' :: 'r' :: 'u' :: 'e' :: rest from by rw [dumpValue]; rfl]
                rw [parseValue, skipWs_cons_not_ws (by decide)]
                dsimp only
                rw [if_neg (by decide), if_neg (by decide), if_neg (by decide),
                  if_pos rfl]
                rfl
            | false =>
                rw [show dumpValue ind (.bool false) ++ rest
                    = 'f' :: 'a' :: 'l' :: 's' :: 'e' :: rest from by rw [dumpValue]; rfl]
                rw [parseValue, skipWs_cons_not_ws (by decide)]
                dsimp only
                rw [if_neg (by decide), if_neg (by decide), if_neg (by decide),
                  if_neg (by decide), if_pos rfl]
                rfl
        | int n =>
            obtain ⟨c, t, hct, hcw, h1, h2, h3, h4, h5, h6⟩ := intChars_shape n
            rw [show dumpValue ind (.int n) = intChars n from by rw [dumpValue]]
            rw [hct, List.cons_append, parseValue, skipWs_cons_not_ws hcw]
            dsimp only
            rw [if_neg h1, if_neg h2, if_neg h3, if_neg h4, if_neg h5, if_neg h6]
            rw [← List.cons_append, ← hct]
            exact parseNumber_intChars n rest hrest
        | float m e =>
            have he : 1 ≤ e := by
              rw [floatsOKb, decide_eq_true_eq] at hwf
              exact hwf
            obtain ⟨c, t, hct, hcw, h1, h2, h3, h4, h5, h6⟩ := floatChars_shape m e
            rw [show dumpValue ind (.float m e) = floatChars m e from by rw [dumpValue]]
            rw [hct, List.cons_append, parseValue, skipWs_cons_not_ws hcw]
            dsimp only
            rw [if_neg h1, if_neg h2, if_neg h3, if_neg h4, if_neg h5, if_neg h6]
            rw [← List.cons_append, ← hct]
            exact parseNumber_floatChars m e he rest hrest
        | str s =>
            rw [show dumpValue ind (.str s) ++ rest
                = '"' :: (escapeList s.data ++ '"' :: rest) from by
              rw [dumpValue]
              simp only [List.cons_append, List.append_assoc, List.nil_append]]
            rw [parseValue, skipWs_cons_not_ws (by decide)]
            dsimp only
            rw [if_neg (by decide), if_neg (by decide), if_pos rfl]
            rw [parseStringBody_escape]
        | arr l =>
            cases l with
            | nil =>
                rw [show dumpValue ind (.arr []) ++ rest = '[' :: ']' :: rest
                  from by rw [dumpValue]; rfl]
                rw [parseValue, skipWs_cons_not_ws (by decide)]
                dsimp only
                rw [if_neg (by decide), if_pos rfl]
                rw [skipWs_cons_not_ws (by decide)]
                dsimp only
                rw [if_pos rfl]
            | cons v vs =>
                have hfitems : jfuelItems v vs ≤ f := by
                  rw [jfuel] at hfu
                  omega
                have hwf' : floatsOKb v = true ∧ floatsOKbItems vs = true := by
                  rw [floatsOKb, floatsOKbItems, Bool.and_eq_true] at hwf
                  exact hwf
                rw [show dumpValue ind (.arr (v :: vs)) ++ rest
                    = '[' :: '\n' :: (dumpItems (ind + 1) v vs
                        ++ '\n' :: (padChars ind ++ ']' :: rest)) from by
                  rw [dumpValue]
                  simp only [List.cons_append, List.append_assoc, List.nil_append]]
                rw [parseValue, skipWs_cons_not_ws (by decide)]
                dsimp only
                rw [if_neg (by decide), if_pos rfl]
                obtain ⟨suf, hsuf⟩ := dumpItems_decompose (ind + 1) v vs
                obtain ⟨c, t, hct, hcw, hc1, hc2, hc3⟩ := dumpValue_head (ind + 1) v
                have hskip : skipWs ('\n' :: (dumpItems (ind + 1) v vs
                    ++ '\n' :: (padChars ind ++ ']' :: rest)))
                    = c :: (t ++ (suf ++ '\n' :: (padChars ind ++ ']' :: rest))) := by
                  rw [skipWs_cons_ws (by decide), hsuf, List.append_assoc, skipWs_pad,
                    List.append_assoc, hct, List.cons_append]
                  exact skipWs_cons_not_ws hcw _
                rw [hskip]
                dsimp only
                rw [if_neg hc1]
                have heq : parseItems f
                    (c :: (t ++ (suf ++ '\n' :: (padChars ind ++ ']' :: rest))))
                    = parseItems f (dumpItems (ind + 1) v vs
                        ++ '\n' :: (padChars ind ++ ']' :: rest)) := by
                  apply parseItems_eq_of_skipWs
                  rw [hsuf, List.append_assoc, skipWs_pad, List.append_assoc, hct,
                    List.cons_append]
                rw [heq]
                rw [ihQ v vs (ind + 1) ind rest hfitems hwf'.1 hwf'.2 hrest]
        | obj m =>
            cases m with
            | nil =>
                rw [show dumpValue ind (.obj []) ++ rest = '\x7b' :: '\x7d' :: rest
                  from by rw [dumpValue]; rfl]
                rw [parseValue, skipWs_cons_not_ws (by decide)]
                dsimp only
                rw [if_pos rfl]
                rw [skipWs_cons_not_ws (by decide)]
                dsimp only
                rw [if_pos rfl]
            | cons kv kvs =>
                obtain ⟨k, v⟩ := kv
                have hfm : jfuelMembers (k, v) kvs ≤ f := by
                  rw [jfuel] at hfu
                  omega
                have hwf' : floatsOKb v = true ∧ floatsOKbMembers kvs = true := by
                  rw [floatsOKb, floatsOKbMembers, Bool.and_eq_true] at hwf
                  exact hwf
                rw [show dumpValue ind (.obj ((k, v) :: kvs)) ++ rest
                    = '\x7b' :: '\n' :: (dumpMembers (ind + 1) (k, v) kvs
                        ++ '\n' :: (padChars ind ++ '\x7d' :: rest)) from by
                  rw [dumpValue]
                  simp only [List.cons_append, List.append_assoc, List.nil_append]]
                rw [parseValue, skipWs_cons_not_ws (by decide)]
                dsimp only
                rw [if_pos rfl]
                obtain ⟨suf, hsuf⟩ := dumpMembers_decompose (ind + 1) (k, v) kvs
                have hskip : skipWs ('\n' :: (dumpMembers (ind + 1) (k, v) kvs
                    ++ '\n' :: (padChars ind ++ '\x7d' :: rest)))
                    = '"' :: (suf ++ '\n' :: (padChars ind ++ '\x7d' :: rest)) := by
                  rw [skipWs_cons_ws (by decide), hsuf, List.append_assoc, skipWs_pad,
                    List.cons_append]
                  exact skipWs_cons_not_ws (by decide) _
                rw [hskip]
                dsimp only
                rw [if_neg (by decide)]
                have heq : parseMembers f
                    ('"' :: (suf ++ '\n' :: (padChars ind ++ '\x7d' :: rest)))
                    = parseMembers f (dumpMembers (ind + 1) (k, v) kvs
                        ++ '\n' :: (padChars ind ++ '\x7d' :: rest)) := by
                  apply parseMembers_eq_of_skipWs
                  rw [hsuf, List.append_assoc, skipWs_pad, List.cons_append]
                rw [heq]
                rw [ihR k v kvs (ind + 1) ind rest hfm hwf'.1 hwf'.2 hrest]
      · -- parseItems on a dumped item list
        intro v vs ind ind₂ rest hfu hwv hwvs hrest
        cases vs with
        | nil =>
            rw [show dumpItems ind v [] ++ '\n' :: (padChars ind₂ ++ ']' :: rest)
                = padChars ind ++ (dumpValue ind v
                    ++ '\n' :: (padChars ind₂ ++ ']' :: rest)) from by
              rw [dumpItems, List.append_assoc]]
            rw [parseItems]
            rw [parseValue_eq_of_skipWs (skipWs_pad ind _) f]
            rw [ihP v ind ('\n' :: (padChars ind₂ ++ ']' :: rest))
              (by rw [jfuelItems] at hfu; omega) hwv (Or.inr rfl)]
            dsimp only
            rw [skipWs_cons_ws (by decide), skipWs_pad,
              skipWs_cons_not_ws (by decide)]
            dsimp only
            rw [if_neg (by decide), if_pos rfl]
        | cons w ws =>
            have hfv : jfuel v ≤ f := by
              rw [jfuelItems] at hfu
              omega
            have hfw : jfuelItems w ws ≤ f := by
              rw [jfuelItems] at hfu
              omega
            have hw' : floatsOKb w = true ∧ floatsOKbItems ws = true := by
              rw [floatsOKbItems, Bool.and_eq_true] at hwvs
              exact hwvs
            rw [show dumpItems ind v (w :: ws) ++ '\n' :: (padChars ind₂ ++ ']' :: rest)
                = padChars ind ++ (dumpValue ind v
                    ++ ',' :: '\n' :: (dumpItems ind w ws
                        ++ '\n' :: (padChars ind₂ ++ ']' :: rest))) from by
              rw [dumpItems]
              simp only [List.cons_append, List.append_assoc]]
            rw [parseItems]
            rw [parseValue_eq_of_skipWs (skipWs_pad ind _) f]
            rw [ihP v ind (',' :: '\n' :: (dumpItems ind w ws
                ++ '\n' :: (padChars ind₂ ++ ']' :: rest))) hfv hwv (Or.inl rfl)]
            dsimp only
            rw [skipWs_cons_not_ws (by decide)]
            dsimp only
            rw [if_pos rfl]
            rw [parseItems_eq_of_skipWs
              (skipWs_cons_ws (by decide) _) f]
            rw [ihQ w ws ind ind₂ rest hfw hw'.1 hw'.2 hrest]
      · -- parseMembers on a dumped member list
        intro k v kvs ind ind₂ rest hfu hwv hwvs hrest
        cases kvs with
        | nil =>
            rw [show dumpMembers ind (k, v) [] ++ '\n' :: (padChars ind₂ ++ '\x7d' :: rest)
                = padChars ind ++ ('"' :: (escapeList k.data
                    ++ '"' :: (':' :: ' ' :: (dumpValue ind v
                        ++ '\n' :: (padChars ind₂ ++ '\x7d' :: rest))))) from by
              rw [dumpMembers]
              simp only [List.cons_append, List.append_assoc]]
            rw [parseMembers]
            rw [skipWs_pad, skipWs_cons_not_ws (by decide)]
            dsimp only
            rw [if_pos rfl]
            rw [parseStringBody_escape]
            dsimp only
            rw [skipWs_cons_not_ws (by decide)]
            dsimp only
            rw [if_pos rfl]
            rw [parseValue_eq_of_skipWs (skipWs_cons_ws (by decide) _) f]
            rw [ihP v ind ('\n' :: (padChars ind₂ ++ '\x7d' :: rest))
              (by rw [jfuelMembers] at hfu; omega) hwv (Or.inr rfl)]
            dsimp only
            rw [skipWs_cons_ws (by decide), skipWs_pad,
              skipWs_cons_not_ws (by decide)]
            dsimp only
            rw [if_neg (by decide), if_pos rfl]
        | cons kv' kvs' =>
            obtain ⟨k', v'⟩ := kv'
            have hfv : jfuel v ≤ f := by
              rw [jfuelMembers] at hfu
              omega
            have hfm : jfuelMembers (k', v') kvs' ≤ f := by
              rw [jfuelMembers] at hfu
              omega
            have hw' : floatsOKb v' = true ∧ floatsOKbMembers kvs' = true := by
              rw [floatsOKbMembers, Bool.and_eq_true] at hwvs
              exact hwvs
            rw [show dumpMembers ind (k, v) ((k', v') :: kvs')
                  ++ '\n' :: (padChars ind₂ ++ '\x7d' :: rest)
                = padChars ind ++ ('"' :: (escapeList k.data
                    ++ '"' :: (':' :: ' ' :: (dumpValue ind v
                        ++ ',' :: '\n' :: (dumpMembers ind (k', v') kvs'
                            ++ '\n' :: (padChars ind₂ ++ '\x7d' :: rest)))))) from by
              rw [dumpMembers]
              simp only [List.cons_append, List.append_assoc]]
            rw [parseMembers]
            rw [skipWs_pad, skipWs_cons_not_ws (by decide)]
            dsimp only
            rw [if_pos rfl]
            rw [parseStringBody_escape]
            dsimp only
            rw [skipWs_cons_not_ws (by decide)]
            dsimp only
            rw [if_pos rfl]
            rw [parseValue_eq_of_skipWs (skipWs_cons_ws (by decide) _) f]
            rw [ihP v ind (',' :: '\n' :: (dumpMembers ind (k', v') kvs'
                ++ '\n' :: (padChars ind₂ ++ '\x7d' :: rest))) hfv hwv (Or.inl rfl)]
            dsimp only
            rw [skipWs_cons_not_ws (by decide)]
            dsimp only
            rw [if_pos rfl]
            rw [parseMembers_eq_of_skipWs (skipWs_cons_ws (by decide) _) f]
            rw [ihR k' v' kvs' ind ind₂ rest hfm hw'.1 hw'.2 hrest]

end PrintedBooks

namespace PrintedBooks

/-- Strong induction over the nested `Json` type. -/
def Json.strongInd {P : Json → Prop}
    (hnull : P .null) (hbool : ∀ b, P (.bool b)) (hint : ∀ n, P (.int n))
    (hfloat : ∀ m e, P (.float m e)) (hstr : ∀ s, P (.str s))
    (harr : ∀ l, (∀ x ∈ l, P x) → P (.arr l))
    (hobj : ∀ m, (∀ k v, (k, v) ∈ m → P v) → P (.obj m)) : ∀ v, P v
  | .null => hnull
  | .bool b => hbool b
  | .int n => hint n
  | .float m e => hfloat m e
  | .str s => hstr s
  | .arr l =>
      harr l (fun x _hx => Json.strongInd hnull hbool hint hfloat hstr harr hobj x)
  | .obj m =>
      hobj m (fun k v _hkv => Json.strongInd hnull hbool hint hfloat hstr harr hobj v)
termination_by v => sizeOf v
decreasing_by
  · have h1 : sizeOf x < sizeOf l := List.sizeOf_lt_of_mem _hx
    simp only [Json.arr.sizeOf_spec]
    omega
  · have h1 : sizeOf (k, v) < sizeOf m := List.sizeOf_lt_of_mem _hkv
    have h2 : sizeOf (k, v) = 1 + sizeOf k + sizeOf v := rfl
    simp only [Json.obj.sizeOf_spec]
    omega

theorem jfuel_le_dumpLen : ∀ v : Json, ∀ ind : Nat,
    jfuel v ≤ (dumpValue ind v).length := by
  intro v
  induction v using Json.strongInd with
  | hnull => intro ind; rw [jfuel, dumpValue]; simp
  | hbool b =>
      intro ind
      cases b with
      | true => rw [jfuel, dumpValue]; simp
      | false => rw [jfuel, dumpValue]; simp
  | hint n =>
      intro ind
      rw [jfuel, dumpValue]
      obtain ⟨c, t, hct, -⟩ := intChars_shape n
      rw [hct]
      simp
  | hfloat m e =>
      intro ind
      rw [jfuel, dumpValue]
      obtain ⟨c, t, hct, -⟩ := floatChars_shape m e
      rw [hct]
      simp
  | hstr s => intro ind; rw [jfuel, dumpValue]; simp
  | harr l ih =>
      intro ind
      cases l with
      | nil => rw [jfuel, dumpValue]; simp
      | cons v vs =>
          have hitems : ∀ vs v ind, (∀ x ∈ v :: vs, ∀ ind', jfuel x ≤ (dumpValue ind' x).length) →
              jfuelItems v vs ≤ (dumpItems ind v vs).length + 1 := by
            intro vs
            induction vs with
            | nil =>
                intro v ind hm
                rw [jfuelItems, dumpItems]
                have := hm v (List.mem_cons_self v []) ind
                simp only [List.length_append]
                omega
            | cons w ws ihw =>
                intro v ind hm
                rw [jfuelItems, dumpItems]
                have h1 := hm v (List.mem_cons_self v (w :: ws)) ind
                have h2 := ihw w ind (fun x hx ind' =>
                  hm x (List.mem_cons_of_mem v hx) ind')
                simp only [List.length_append, List.length_cons]
                omega
          have h := hitems vs v (ind + 1) (fun x hx ind' => ih x hx ind')
          rw [jfuel, dumpValue]
          simp only [List.length_cons, List.length_append, List.length_cons]
          omega
  | hobj m ih =>
      intro ind
      cases m with
      | nil => rw [jfuel, dumpValue]; simp
      | cons kv kvs =>
          obtain ⟨k, v⟩ := kv
          have hmem : ∀ kvs k v ind, (∀ k' v', (k', v') ∈ (k, v) :: kvs →
                ∀ ind', jfuel v' ≤ (dumpValue ind' v').length) →
              jfuelMembers (k, v) kvs ≤ (dumpMembers ind (k, v) kvs).length + 1 := by
            intro kvs
            induction kvs with
            | nil =>
                intro k v ind hm
                rw [jfuelMembers, dumpMembers]
                have := hm k v (List.mem_cons_self (k, v) []) ind
                simp only [List.length_append, List.length_cons]
                omega
            | cons kv' kvs' ihw =>
                obtain ⟨k', v'⟩ := kv'
                intro k v ind hm
                rw [jfuelMembers, dumpMembers]
                have h1 := hm k v (List.mem_cons_self (k, v) ((k', v') :: kvs')) ind
                have h2 := ihw k' v' ind (fun k'' v'' hx ind' =>
                  hm k'' v'' (List.mem_cons_of_mem (k, v) hx) ind')
                simp only [List.length_append, List.length_cons]
                omega
          have h := hmem kvs k v (ind + 1) (fun k' v' hkv ind' => ih k' v' hkv ind')
          rw [jfuel, dumpValue]
          simp only [List.length_cons, List.length_append]
          omega

end PrintedBooks

namespace PrintedBooks

theorem parseNumberCore_floatsOK {neg : Bool} {cs : List Char} {v : Json}
    {rest : List Char} (h : parseNumberCore neg cs = some (v, rest)) :
    floatsOKb v = true := by
  rw [parseNumberCore] at h
  split at h
  · cases h
  · split at h
    · split at h
      · cases h
      · cases h
        rw [floatsOKb]
        simp
    · cases h
      rw [floatsOKb]

theorem parseNumber_floatsOK {cs : List Char} {v : Json} {rest : List Char}
    (h : parseNumber cs = some (v, rest)) : floatsOKb v = true := by
  rw [parseNumber.eq_def] at h
  split at h
  · exact parseNumberCore_floatsOK h
  · exact parseNumberCore_floatsOK h

/-- Everything the parser produces has only floats with at least one digit
after the point (a fraction part is a non-empty digit run). -/
theorem parse_wf : ∀ fuel : Nat,
    (∀ cs v rest, parseValue fuel cs = some (v, rest) → floatsOKb v = true) ∧
    (∀ cs vs rest, parseItems fuel cs = some (vs, rest) →
      floatsOKbItems vs = true) ∧
    (∀ cs ms rest, parseMembers fuel cs = some (ms, rest) →
      floatsOKbMembers ms = true) := by
  intro fuel
  induction fuel with
  | zero =>
      refine ⟨?_, ?_, ?_⟩
      · intro cs v rest h
        rw [parseValue] at h
        cases h
      · intro cs vs rest h
        rw [parseItems] at h
        cases h
      · intro cs ms rest h
        rw [parseMembers] at h
        cases h
  | succ f ih =>
      obtain ⟨ihP, ihQ, ihR⟩ := ih
      refine ⟨?_, ?_, ?_⟩
      · intro cs v rest h
        rw [parseValue] at h
        split at h
        · cases h
        · split_ifs at h with h1 h2 h3 h4 h5 h6
          · -- object
            split at h
            · cases h
            · split_ifs at h with hd
              · cases h
                rw [floatsOKb, floatsOKbMembers]
              · split at h
                · rename_i ms rest₂ heq
                  cases h
                  rw [floatsOKb]
                  exact ihR _ _ _ heq
                · cases h
          · -- array
            split at h
            · cases h
            · split_ifs at h with hd
              · cases h
                rw [floatsOKb, floatsOKbItems]
              · split at h
                · rename_i vs rest₂ heq
                  cases h
                  rw [floatsOKb]
                  exact ihQ _ _ _ heq
                · cases h
          · -- string
            split at h
            · rename_i s rest₂ heq
              cases h
              rw [floatsOKb]
            · cases h
          · -- true
            split at h
            · cases h
              rw [floatsOKb]
            · cases h
          · -- false
            split at h
            · cases h
              rw [floatsOKb]
            · cases h
          · -- null
            split at h
            · cases h
              rw [floatsOKb]
            · cases h
          · -- number
            exact parseNumber_floatsOK h
      · intro cs vs rest h
        rw [parseItems] at h
        split at h
        · cases h
        · rename_i v' rest' heq
          split at h
          · cases h
          · split_ifs at h with hd1 hd2
            · split at h
              · rename_i vs' rest₃ heq2
                cases h
                rw [floatsOKbItems, Bool.and_eq_true]
                exact ⟨ihP _ _ _ heq, ihQ _ _ _ heq2⟩
              · cases h
            · cases h
              rw [floatsOKbItems, Bool.and_eq_true]
              refine ⟨ihP _ _ _ heq, ?_⟩
              rw [floatsOKbItems]
      · intro cs ms rest h
        rw [parseMembers] at h
        split at h
        · cases h
        · split_ifs at h with hq
          · split at h
            · cases h
            · rename_i k rest' heq0
              split at h
              · cases h
              · split_ifs at h with hc
                · split at h
                  · cases h
                  · rename_i v' rest₃ heq
                    split at h
                    · cases h
                    · split_ifs at h with hd1 hd2
                      · split at h
                        · rename_i ms' rest₅ heq2
                          cases h
                          rw [floatsOKbMembers, Bool.and_eq_true]
                          exact ⟨ihP _ _ _ heq, ihR _ _ _ heq2⟩
                        · cases h
                      · cases h
                        rw [floatsOKbMembers, Bool.and_eq_true]
                        refine ⟨ihP _ _ _ heq, ?_⟩
                        rw [floatsOKbMembers]

end PrintedBooks

namespace PrintedBooks

/-- C6. Load/save round trip: any document `X` that `json.load` accepts as a
value `v` is saved by `json.dump` to a document that `json.load` reads back
as exactly the same value `v` — so `save(load(X))` equals `X` as a JSON
document (same parsed value; in particular equality up to whitespace and
key order, with non-ASCII text emitted literally, `ensure_ascii=False`). -/
theorem load_save_roundtrip (X : String) (v : Json)
    (h : json_loads X = some v) : json_loads (json_dumps v) = some v := by
  have hfOK : floatsOKb v = true := by
    rw [json_loads] at h
    split at h
    · rename_i v' rest heq
      split_ifs at h
      cases h
      exact (parse_wf _).1 _ _ _ heq
    · cases h
  have hfuel : jfuel v ≤ (dumpValue 0 v).length + 1 :=
    le_trans (jfuel_le_dumpLen v 0) (Nat.le_succ _)
  have hp := (parse_dump ((dumpValue 0 v).length + 1)).1 v 0 []
    hfuel hfOK trivial
  rw [List.append_nil] at hp
  rw [json_loads]
  show (match parseValue ((dumpValue 0 v).length + 1) (dumpValue 0 v) with
    | some (v', rest) => if skipWs rest = [] then some v' else none
    | none => none) = some v
  rw [hp]
  show (if skipWs ([] : List Char) = [] then some v else none) = some v
  rw [if_pos skipWs_nil]

theorem load_save_roundtrip_witness :
    json_loads (json_dumps (Json.arr [Json.int 1, Json.float 25 1])) =
      some (Json.arr [Json.int 1, Json.float 25 1]) :=
  load_save_roundtrip "[1, 2.5]" (Json.arr [Json.int 1, Json.float 25 1])
    (by rfl)

end PrintedBooks
